import Mathlib

/-!
Shallow embedding of the LRU-K replacer of this repository
(`src/buffer/lru_k_replacer.cpp`), together with proofs of the
specification claims about it.

The companion header `lru_k_replacer.h` is not part of the sources, so the
pieces it declares (the node structure's field defaults, the two priority
comparators, the capacity constant of the evicted-page cache) are modelled
from the spec where noted; everything else is translated directly from the
`.cpp` file.

Modelling conventions:
  * `std::list<size_t> history_` becomes `List Nat`, oldest timestamp first
    (`push_back` appends, `pop_front` drops the head, `back` is the last).
  * the two `std::priority_queue`s become lists kept sorted with the
    highest-priority element (the queue's `top()`) at the head; `push` is
    ordered insertion.  The pop-until-found / push-back rebuild loops of the
    C++ code pop elements in priority order, so their net effect on the queue
    is the removal of the first element (in head-first order) whose frame id
    matches; that net effect is what the removal functions below compute.
  * `std::map<size_t, LRUKNode> cache_deleted_pages` becomes an association
    list sorted by strictly increasing key; `begin()` is the head, iteration
    is list order, `insert` inserts in key order and keeps an existing key
    (as `std::map::insert` does).
  * `BUSTUB_ASSERT` failure and calling `top()`/`pop()` on an empty
    `std::priority_queue` (undefined behaviour in C++) are modelled as the
    errors of an `Except`: an operation that would hit them returns no state.
-/

namespace LRUK

/-- Per-frame eviction metadata (`struct LRUKNode` of the missing header;
fields are the ones the `.cpp` file uses: `history_`, `k_`, `fid_`,
`is_evictable_`). -/
structure LRUKNode where
  fid : Nat
  history : List Nat
  is_evictable : Bool
  k : Nat
deriving Repr, DecidableEq

/-- Modelled from the spec: a default-constructed node.  The header that
declares `LRUKNode` is missing, so its initialisers are unknown; the spec's
data model (nodes start untracked with empty history and not evictable)
fixes the empty history and cleared evictable flag, the numeric fields
default to zero. -/
def defaultNode : LRUKNode := ⟨0, [], false, 0⟩

/-- Error outcomes of an operation: a `BUSTUB_ASSERT` firing, or `top()` /
`pop()` on an empty priority queue (undefined behaviour in the C++). -/
inductive RepErr where
  | assertFail
  | emptyTop
deriving Repr, DecidableEq

/-- State of `class LRUKReplacer`.  `cache_cap` is the capacity constant
`size_cache_deleted_pages_` of the missing header, modelled from the spec
("bounded to a fixed capacity") as a parameter of the state. -/
structure LRUKReplacer where
  replacer_size : Nat
  k : Nat
  cache_cap : Nat
  node_store : List (Nat × LRUKNode)
  less_k_history : List LRUKNode
  k_history : List LRUKNode
  cache_deleted_pages : List (Nat × LRUKNode)
  curr_size : Nat
  current_timestamp : Nat
deriving Repr, DecidableEq

/-- `LRUKReplacer(num_frames, k)`: the constructor zero-initialises every
container and counter. -/
def mkReplacer (num_frames k cap : Nat) : LRUKReplacer :=
  ⟨num_frames, k, cap, [], [], [], [], 0, 0⟩

/-! ### `std::unordered_map<frame_id_t, LRUKNode> node_store_` -/

/-- `node_store_.find(fid)` / `node_store_[fid]` read access. -/
def lookupFid (store : List (Nat × LRUKNode)) (fid : Nat) : Option LRUKNode :=
  match store with
  | [] => none
  | (g, n) :: rest => if g = fid then some n else lookupFid rest fid

/-- `node_store_.erase(fid)`. -/
def eraseFid (store : List (Nat × LRUKNode)) (fid : Nat) : List (Nat × LRUKNode) :=
  match store with
  | [] => []
  | (g, n) :: rest => if g = fid then eraseFid rest fid else (g, n) :: eraseFid rest fid

/-- `node_store_[fid] = node` (insert or overwrite). -/
def insertFid (store : List (Nat × LRUKNode)) (fid : Nat) (n : LRUKNode) :
    List (Nat × LRUKNode) :=
  (fid, n) :: eraseFid store fid

/-! ### The two priority queues

Modelled from the spec: the header's comparators are missing, and §4.1 of
the spec fixes their orderings.  `less_k_history_` (nodes with fewer than K
accesses) is ordered so that its top is the node whose single most recent
access timestamp is smallest; `k_history_` (nodes with K or more accesses)
is ordered so that its top is the node with the largest backward k-distance,
i.e. the smallest K-th most recent access timestamp, which is the first
(oldest) entry of the at-most-K-long history. -/

/-- Priority key of `less_k_history_`: the most recent access timestamp
(smaller = closer to the top). -/
def lessKKey (n : LRUKNode) : Nat := n.history.getLast?.getD 0

/-- Priority key of `k_history_`: the K-th most recent access timestamp,
i.e. the head of the retained history (smaller = closer to the top). -/
def kKey (n : LRUKNode) : Nat := n.history.head?.getD 0

/-- `push` of a priority queue represented as a key-sorted list whose head
is the queue's top (the minimal key). -/
def pqPush (key : LRUKNode → Nat) (x : LRUKNode) : List LRUKNode → List LRUKNode
  | [] => [x]
  | y :: ys => if key x < key y then x :: y :: ys else y :: pqPush key x ys

/-- Number of queue entries carrying a given frame id. -/
def countFid (fid : Nat) : List LRUKNode → Nat
  | [] => 0
  | x :: xs => (if x.fid = fid then 1 else 0) + countFid fid xs

/-- Net effect of the rebuild loop `while (q.top().fid_ != fid) {...}; q.pop();`
followed by pushing the drained elements back: the first entry (in priority
order) with the given frame id is removed.  If no entry matches, the loop
calls `top()` on an empty queue — an error. -/
def pqRemoveFidE (fid : Nat) : List LRUKNode → Except RepErr (List LRUKNode)
  | [] => .error .emptyTop
  | x :: xs =>
      if x.fid = fid then .ok xs
      else (pqRemoveFidE fid xs).map (fun l => x :: l)

/-- Net effect of the guarded rebuild loop of `SetEvictable`
(`while (!q.empty()) { if (top.fid == fid) {found; pop; break;} ... }`):
removes the first matching entry if any, and reports whether one was found. -/
def pqRemoveFidOpt (fid : Nat) : List LRUKNode → (Bool × List LRUKNode)
  | [] => (false, [])
  | x :: xs =>
      if x.fid = fid then (true, xs)
      else
        let r := pqRemoveFidOpt fid xs
        (r.1, x :: r.2)

/-! ### `std::map<size_t, LRUKNode> cache_deleted_pages` -/

/-- `std::map::insert({key, v})`: ordered insertion that keeps an existing
entry with the same key. -/
def cacheInsert (key : Nat) (v : LRUKNode) :
    List (Nat × LRUKNode) → List (Nat × LRUKNode)
  | [] => [(key, v)]
  | (a, b) :: rest =>
      if key < a then (key, v) :: (a, b) :: rest
      else if key = a then (a, b) :: rest
      else (a, b) :: cacheInsert key v rest

/-- `if (cache.size() > cap) cache.erase(cache.begin());` — drop the entry
with the smallest key when over capacity. -/
def cacheTrim (cap : Nat) (c : List (Nat × LRUKNode)) : List (Nat × LRUKNode) :=
  if cap < c.length then c.tail else c

/-- The lookup loop of `RecordAccess`: iterate the cache in key order and
return the first entry whose retained node has the given frame id. -/
def cacheFindFid (fid : Nat) : List (Nat × LRUKNode) → Option (Nat × LRUKNode)
  | [] => none
  | (a, b) :: rest => if b.fid = fid then some (a, b) else cacheFindFid fid rest

/-- `cache.erase(it)` for the iterator found by `cacheFindFid`. -/
def cacheEraseKey (key : Nat) : List (Nat × LRUKNode) → List (Nat × LRUKNode)
  | [] => []
  | (a, b) :: rest => if a = key then cacheEraseKey key rest else (a, b) :: cacheEraseKey key rest

/-! ### The four operations -/

namespace LRUKReplacer

/-- `LRUKReplacer::Evict` (lru_k_replacer.cpp lines 19–40). -/
def Evict (s : LRUKReplacer) : Except RepErr (Option Nat × LRUKReplacer) :=
  if s.curr_size = 0 then .ok (none, s)
  else
    match s.less_k_history with
    | e :: rest => .ok (some e.fid, finish e.fid { s with less_k_history := rest })
    | [] =>
        match s.k_history with
        | e :: rest => .ok (some e.fid, finish e.fid { s with k_history := rest })
        | [] => .error .emptyTop
where
  /-- the shared tail of `Evict` after the victim is popped: decrement
  `curr_size_`, insert the victim's store node into the evicted-page cache
  under a fresh timestamp, trim that cache, erase the store entry. -/
  finish (frame : Nat) (s : LRUKReplacer) : LRUKReplacer :=
    let node := (lookupFid s.node_store frame).getD defaultNode
    { s with
      curr_size := s.curr_size - 1,
      current_timestamp := s.current_timestamp + 1,
      cache_deleted_pages :=
        cacheTrim s.cache_cap
          (cacheInsert s.current_timestamp node s.cache_deleted_pages),
      node_store := eraseFid s.node_store frame }

/-- The body of `RecordAccess` after the node exists (lru_k_replacer.cpp
lines 63–101): the local copy `node` is read from `store0` at `fid` (passed
directly here), the current timestamp is appended, the history is trimmed
past `k` (updating the node's `k_history_` entry when evictable), the node
is moved from `less_k_history_` to `k_history_` when its history length
lands exactly on `k` while evictable, and the node is written back. -/
def recordCore (s : LRUKReplacer) (fid : Nat) (node : LRUKNode)
    (store0 cache0 : List (Nat × LRUKNode)) : Except RepErr LRUKReplacer :=
  (if s.k < (node.history ++ [s.current_timestamp]).length then
    if node.is_evictable then
      (pqRemoveFidE fid s.k_history).map
        (fun kq => ((node.history ++ [s.current_timestamp]).tail,
          pqPush kKey
            { node with history := (node.history ++ [s.current_timestamp]).tail } kq))
    else .ok ((node.history ++ [s.current_timestamp]).tail, s.k_history)
  else .ok (node.history ++ [s.current_timestamp], s.k_history)).bind (fun pr =>
    (if pr.1.length = s.k ∧ node.is_evictable then
      (pqRemoveFidE fid s.less_k_history).map
        (fun lq => (pqPush kKey { node with history := pr.1 } pr.2, lq))
    else .ok (pr.2, s.less_k_history)).map (fun qs =>
      { s with
        node_store := insertFid store0 fid { node with history := pr.1 },
        cache_deleted_pages := cache0,
        less_k_history := qs.2,
        k_history := qs.1,
        current_timestamp := s.current_timestamp + 1 }))

/-- `LRUKReplacer::RecordAccess` (lru_k_replacer.cpp lines 42–102).
The `access_type` parameter is `[[maybe_unused]]` in the code and omitted.
If the frame has no node, a node is restored from the evicted-page cache
(history cleared, evictable flag cleared, the cache entry consumed) or
default-constructed with `k_` and `fid_` set. -/
def RecordAccess (s : LRUKReplacer) (fid : Nat) : Except RepErr LRUKReplacer :=
  if ¬ fid < s.replacer_size then .error .assertFail
  else
    match lookupFid s.node_store fid with
    | some node => recordCore s fid node s.node_store s.cache_deleted_pages
    | none =>
        match cacheFindFid fid s.cache_deleted_pages with
        | some (key, n) =>
            let node := { n with history := ([] : List Nat), is_evictable := false }
            recordCore s fid node (insertFid s.node_store fid node)
              (cacheEraseKey key s.cache_deleted_pages)
        | none =>
            let node := { defaultNode with fid := fid, k := s.k }
            recordCore s fid node (insertFid s.node_store fid node)
              s.cache_deleted_pages

/-- `LRUKReplacer::SetEvictable` (lru_k_replacer.cpp lines 104–152). -/
def SetEvictable (s : LRUKReplacer) (fid : Nat) (set_ev : Bool) :
    Except RepErr LRUKReplacer :=
  if ¬ fid < s.replacer_size then .error .assertFail
  else
    match lookupFid s.node_store fid with
    | none => .ok s
    | some node =>
        if set_ev ∧ node.is_evictable = false then
          let node1 := { node with is_evictable := true }
          .ok { s with
            curr_size := s.curr_size + 1,
            less_k_history :=
              if node.history.length < s.k then pqPush lessKKey node1 s.less_k_history
              else s.less_k_history,
            k_history :=
              if node.history.length < s.k then s.k_history
              else pqPush kKey node1 s.k_history,
            node_store := insertFid s.node_store fid node1,
            current_timestamp := s.current_timestamp + 1 }
        else if set_ev = false ∧ node.is_evictable then
          let node1 := { node with is_evictable := false }
          let r := pqRemoveFidOpt fid s.k_history
          if r.1 then
            .ok { s with
              curr_size := s.curr_size - 1,
              k_history := r.2,
              node_store := insertFid s.node_store fid node1,
              current_timestamp := s.current_timestamp + 1 }
          else
            (pqRemoveFidE fid s.less_k_history).map (fun lq =>
              { s with
                curr_size := s.curr_size - 1,
                less_k_history := lq,
                node_store := insertFid s.node_store fid node1,
                current_timestamp := s.current_timestamp + 1 })
        else
          .ok { s with
            node_store := insertFid s.node_store fid node,
            current_timestamp := s.current_timestamp + 1 }

/-- `LRUKReplacer::Remove` (lru_k_replacer.cpp lines 154–166).  Note that it
erases the node from the store and retains it in the evicted-page cache but
does not touch the two priority queues. -/
def Remove (s : LRUKReplacer) (fid : Nat) : Except RepErr LRUKReplacer :=
  if ¬ fid < s.replacer_size then .error .assertFail
  else
    match lookupFid s.node_store fid with
    | none => .ok s
    | some node =>
        if node.is_evictable = false then .error .assertFail
        else
          .ok { s with
            cache_deleted_pages :=
              cacheTrim s.cache_cap
                (cacheInsert s.current_timestamp node s.cache_deleted_pages),
            current_timestamp := s.current_timestamp + 1,
            curr_size := s.curr_size - 1,
            node_store := eraseFid s.node_store fid }

/-- `LRUKReplacer::Size`. -/
def Size (s : LRUKReplacer) : Nat := s.curr_size

end LRUKReplacer

/-! ### Operation sequences -/

/-- One call into the replacer's public interface. -/
inductive Op where
  | acc (fid : Nat)
  | setEv (fid : Nat) (b : Bool)
  | evict
  | rem (fid : Nat)
deriving Repr, DecidableEq

/-- Execute one call (the frame id returned by `Evict` is discarded). -/
def step (o : Op) (s : LRUKReplacer) : Except RepErr LRUKReplacer :=
  match o with
  | .acc fid => s.RecordAccess fid
  | .setEv fid b => s.SetEvictable fid b
  | .evict => (s.Evict).map (fun p => p.2)
  | .rem fid => s.Remove fid

/-- Execute a sequence of calls left to right. -/
def run (ops : List Op) (s : LRUKReplacer) : Except RepErr LRUKReplacer :=
  match ops with
  | [] => .ok s
  | o :: rest =>
      match step o s with
      | .ok s' => run rest s'
      | .error e => .error e

/-- Does a call invoke `Remove`? -/
def Op.isRem : Op → Bool
  | .rem _ => true
  | _ => false

/-- Sequences that never call `Remove`. -/
def NoRemove (ops : List Op) : Prop :=
  ∀ o ∈ ops, o.isRem = false

/-- Is a call a `RecordAccess` or `SetEvictable`? -/
def Op.isAccSet : Op → Bool
  | .acc _ => true
  | .setEv _ _ => true
  | _ => false

/-- Sequences of `RecordAccess` and `SetEvictable` calls only. -/
def OnlyAccessSet (ops : List Op) : Prop :=
  ∀ o ∈ ops, o.isAccSet = true

instance : DecidablePred NoRemove := fun ops =>
  decidable_of_iff (∀ o ∈ ops, o.isRem = false) Iff.rfl

instance : DecidablePred OnlyAccessSet := fun ops =>
  decidable_of_iff (∀ o ∈ ops, o.isAccSet = true) Iff.rfl

/-! ### Basic lemmas about the container operations -/


theorem lookupFid_eraseFid (st : List (Nat × LRUKNode)) (f g : Nat) :
    lookupFid (eraseFid st f) g = if g = f then none else lookupFid st g := by
  induction st with
  | nil => simp [eraseFid, lookupFid]
  | cons p rest ih =>
      obtain ⟨a, b⟩ := p
      by_cases haf : a = f
      · by_cases hgf : g = f
        · subst hgf
          simp [eraseFid, haf, ih]
        · have hag : ¬ a = g := fun h => hgf (h ▸ haf)
          simp [eraseFid, lookupFid, haf, ih, hgf, hag, Ne.symm hgf]
      · by_cases hag : a = g
        · have hgf : ¬ g = f := fun h => haf (hag.trans h)
          simp [eraseFid, lookupFid, haf, hag, ih, hgf]
        · simp [eraseFid, lookupFid, haf, hag, ih]

theorem lookupFid_insertFid (st : List (Nat × LRUKNode)) (f g : Nat) (n : LRUKNode) :
    lookupFid (insertFid st f n) g = if f = g then some n else lookupFid st g := by
  simp only [insertFid, lookupFid]
  by_cases h : f = g
  · simp [h]
  · simp [h, lookupFid_eraseFid, Ne.symm h]

theorem countFid_pqPush (key : LRUKNode → Nat) (x : LRUKNode) (l : List LRUKNode)
    (g : Nat) :
    countFid g (pqPush key x l) = countFid g l + (if x.fid = g then 1 else 0) := by
  induction l with
  | nil => simp [pqPush, countFid, Nat.add_comm]
  | cons y ys ih =>
      simp only [pqPush]
      split
      · simp only [countFid]; omega
      · simp only [countFid, ih]; omega

theorem length_pqPush (key : LRUKNode → Nat) (x : LRUKNode) (l : List LRUKNode) :
    (pqPush key x l).length = l.length + 1 := by
  induction l with
  | nil => simp [pqPush]
  | cons y ys ih => simp only [pqPush]; split <;> simp [ih]

theorem pqRemoveFidE_isOk (fid : Nat) (l : List LRUKNode) :
    (∃ l', pqRemoveFidE fid l = .ok l') ↔ 0 < countFid fid l := by
  induction l with
  | nil => simp [pqRemoveFidE, countFid]
  | cons x xs ih =>
      simp only [pqRemoveFidE, countFid]
      split
      · simp_all
      · constructor
        · rintro ⟨l', hl'⟩
          cases hrec : pqRemoveFidE fid xs with
          | error e => rw [hrec] at hl'; exact absurd hl' (by simp [Except.map])
          | ok m =>
              have : 0 < countFid fid xs := ih.mp ⟨m, hrec⟩
              omega
        · intro hpos
          have hxs : 0 < countFid fid xs := by
            rename_i hx
            simpa [hx] using hpos
          obtain ⟨m, hm⟩ := ih.mpr hxs
          exact ⟨x :: m, by simp [hm, Except.map]⟩

theorem pqRemoveFidE_error (fid : Nat) (l : List LRUKNode) (e : RepErr)
    (h : pqRemoveFidE fid l = .error e) : countFid fid l = 0 := by
  by_contra hne
  obtain ⟨l', hl'⟩ := (pqRemoveFidE_isOk fid l).mpr (Nat.pos_of_ne_zero hne)
  rw [h] at hl'
  cases hl'

theorem pqRemoveFidE_ok (fid : Nat) (l l' : List LRUKNode)
    (h : pqRemoveFidE fid l = .ok l') :
    countFid fid l = countFid fid l' + 1 ∧
    (∀ g, g ≠ fid → countFid g l' = countFid g l) ∧
    l.length = l'.length + 1 := by
  induction l generalizing l' with
  | nil => cases h
  | cons x xs ih =>
      simp only [pqRemoveFidE] at h
      split at h
      · rename_i hx
        cases h
        refine ⟨by simp [countFid, hx, Nat.add_comm], fun g hg => ?_, by simp⟩
        have hxg : ¬ x.fid = g := by rw [hx]; exact fun hh => hg hh.symm
        simp [countFid, hxg]
      · rename_i hx
        cases hrec : pqRemoveFidE fid xs with
        | error e => rw [hrec] at h; exact absurd h (by simp [Except.map])
        | ok m =>
            rw [hrec] at h
            simp only [Except.map] at h
            cases h
            obtain ⟨h1, h2, h3⟩ := ih m hrec
            refine ⟨by simp only [countFid]; omega, fun g hg => ?_, by simp [h3]⟩
            have := h2 g hg
            simp only [countFid]; omega

theorem pqRemoveFidOpt_false (fid : Nat) (l : List LRUKNode)
    (h : (pqRemoveFidOpt fid l).1 = false) :
    (pqRemoveFidOpt fid l).2 = l ∧ countFid fid l = 0 := by
  induction l with
  | nil => simp [pqRemoveFidOpt, countFid]
  | cons x xs ih =>
      simp only [pqRemoveFidOpt] at h ⊢
      split at h
      · cases h
      · rename_i hx
        simp only [hx] at h ⊢
        obtain ⟨h1, h2⟩ := ih h
        simp [countFid, hx, h1, h2]

theorem pqRemoveFidOpt_true (fid : Nat) (l : List LRUKNode)
    (h : (pqRemoveFidOpt fid l).1 = true) :
    countFid fid l = countFid fid (pqRemoveFidOpt fid l).2 + 1 ∧
    (∀ g, g ≠ fid → countFid g (pqRemoveFidOpt fid l).2 = countFid g l) ∧
    l.length = (pqRemoveFidOpt fid l).2.length + 1 := by
  induction l with
  | nil => cases h
  | cons x xs ih =>
      simp only [pqRemoveFidOpt] at h ⊢
      split at h
      · rename_i hx
        simp only [hx]
        refine ⟨by simp [countFid, hx, Nat.add_comm], fun g hg => ?_, by simp⟩
        have hxg : ¬ x.fid = g := by rw [hx]; exact fun hh => hg hh.symm
        simp [countFid, hxg]
      · rename_i hx
        simp only [hx] at h ⊢
        obtain ⟨h1, h2, h3⟩ := ih h
        refine ⟨by simp only [countFid]; omega, fun g hg => ?_, by simp [h3]⟩
        have := h2 g hg
        simp only [countFid]; omega



/-! ### The reachable-state invariants -/

/-- Expected multiplicity of a frame in `less_k_history_`: one entry exactly
when the store tracks it as evictable with history shorter than `k`. -/
def expLessS (k : Nat) (store : List (Nat × LRUKNode)) (f : Nat) : Nat :=
  match lookupFid store f with
  | some n => if n.is_evictable = true ∧ n.history.length < k then 1 else 0
  | none => 0

/-- Expected multiplicity of a frame in `k_history_`: one entry exactly when
the store tracks it as evictable with history length at least `k`. -/
def expKS (k : Nat) (store : List (Nat × LRUKNode)) (f : Nat) : Nat :=
  match lookupFid store f with
  | some n => if n.is_evictable = true ∧ k ≤ n.history.length then 1 else 0
  | none => 0

/-- The queue-membership invariant, parameterised by the store. -/
def heapInvS (k : Nat) (store : List (Nat × LRUKNode))
    (lq kq : List LRUKNode) : Prop :=
  ∀ f, countFid f lq = expLessS k store f ∧ countFid f kq = expKS k store f

/-- Histories of tracked nodes never exceed `k`, parameterised by the store. -/
def histInvS (k : Nat) (store : List (Nat × LRUKNode)) : Prop :=
  ∀ f n, lookupFid store f = some n → n.history.length ≤ k

/-- Queue membership matches the store (claim C2's invariant). -/
def HeapInv (s : LRUKReplacer) : Prop :=
  heapInvS s.k s.node_store s.less_k_history s.k_history

/-- `curr_size_` equals the total number of queue entries. -/
def SizeInv (s : LRUKReplacer) : Prop :=
  s.curr_size = s.less_k_history.length + s.k_history.length

/-- Histories of tracked nodes never exceed `k` (claim C6's invariant). -/
def HistInv (s : LRUKReplacer) : Prop := histInvS s.k s.node_store

/-- Every tracked node records its own frame id, parameterised by the store. -/
def fidInvS (store : List (Nat × LRUKNode)) : Prop :=
  ∀ f n, lookupFid store f = some n → n.fid = f

/-- Every tracked node records its own frame id. -/
def FidInv (s : LRUKReplacer) : Prop := fidInvS s.node_store

/-- The conjunction of the state invariants preserved on remove-free runs. -/
def Inv (s : LRUKReplacer) : Prop := HeapInv s ∧ SizeInv s ∧ HistInv s ∧ FidInv s

theorem countFid_le_length (f : Nat) (l : List LRUKNode) :
    countFid f l ≤ l.length := by
  induction l with
  | nil => simp [countFid]
  | cons x xs ih => simp only [countFid, List.length_cons]; split <;> omega

theorem expLessS_insertFid (k : Nat) (store : List (Nat × LRUKNode))
    (fid : Nat) (n : LRUKNode) (g : Nat) :
    expLessS k (insertFid store fid n) g =
      if fid = g then (if n.is_evictable = true ∧ n.history.length < k then 1 else 0)
      else expLessS k store g := by
  unfold expLessS
  rw [lookupFid_insertFid]
  by_cases h : fid = g <;> simp [h]

theorem expKS_insertFid (k : Nat) (store : List (Nat × LRUKNode))
    (fid : Nat) (n : LRUKNode) (g : Nat) :
    expKS k (insertFid store fid n) g =
      if fid = g then (if n.is_evictable = true ∧ k ≤ n.history.length then 1 else 0)
      else expKS k store g := by
  unfold expKS
  rw [lookupFid_insertFid]
  by_cases h : fid = g <;> simp [h]

theorem expLessS_eraseFid (k : Nat) (store : List (Nat × LRUKNode))
    (fid g : Nat) :
    expLessS k (eraseFid store fid) g = if g = fid then 0 else expLessS k store g := by
  unfold expLessS
  rw [lookupFid_eraseFid]
  by_cases h : g = fid <;> simp [h]

theorem expKS_eraseFid (k : Nat) (store : List (Nat × LRUKNode))
    (fid g : Nat) :
    expKS k (eraseFid store fid) g = if g = fid then 0 else expKS k store g := by
  unfold expKS
  rw [lookupFid_eraseFid]
  by_cases h : g = fid <;> simp [h]

/-- Inserting a non-evictable node for an untracked frame leaves the
queue-membership invariant intact. -/
theorem heapInvS_insert_nonEv {k : Nat} {store : List (Nat × LRUKNode)}
    {lq kq : List LRUKNode} {fid : Nat} {n : LRUKNode}
    (hheap : heapInvS k store lq kq)
    (hun : lookupFid store fid = none)
    (hev : n.is_evictable = false) :
    heapInvS k (insertFid store fid n) lq kq := by
  intro g
  rw [expLessS_insertFid, expKS_insertFid]
  by_cases h : fid = g
  · subst h
    have := hheap fid
    simp [expLessS, expKS, hun, hev] at this ⊢
    exact this
  · simp only [if_neg h]
    exact hheap g


/-- A successful `recordCore` preserves the state invariants, given that the
node passed in is the one stored at `fid`. -/
theorem recordCore_inv {s : LRUKReplacer} {fid : Nat} {node : LRUKNode}
    {store0 cache0 : List (Nat × LRUKNode)} {s' : LRUKReplacer}
    (hstore : lookupFid store0 fid = some node)
    (hfid : node.fid = fid)
    (hheap : heapInvS s.k store0 s.less_k_history s.k_history)
    (hsize : SizeInv s)
    (hhist : histInvS s.k store0)
    (hfidinv : fidInvS store0)
    (hok : LRUKReplacer.recordCore s fid node store0 cache0 = .ok s') :
    Inv s' := by
  have hlen : node.history.length ≤ s.k := hhist fid node hstore
  have hlen1 : (node.history ++ [s.current_timestamp]).length = node.history.length + 1 := by
    simp
  have hlent : (node.history ++ [s.current_timestamp]).tail.length = node.history.length := by
    simp [List.length_tail]
  have hcl : countFid fid s.less_k_history = expLessS s.k store0 fid := (hheap fid).1
  have hck : countFid fid s.k_history = expKS s.k store0 fid := (hheap fid).2
  unfold LRUKReplacer.recordCore at hok
  by_cases hk : s.k < (node.history ++ [s.current_timestamp]).length
  · rw [if_pos hk] at hok
    have hlk : node.history.length = s.k := by rw [hlen1] at hk; omega
    by_cases hev : node.is_evictable = true
    · rw [if_pos hev] at hok
      cases hrk : pqRemoveFidE fid s.k_history with
      | error e => rw [hrk] at hok; simp [Except.map, Except.bind] at hok
      | ok kq2 =>
          rw [hrk] at hok
          simp only [Except.map, Except.bind] at hok
          rw [if_pos ⟨by rw [hlent, hlk], hev⟩] at hok
          cases hrl : pqRemoveFidE fid s.less_k_history with
          | error e => rw [hrl] at hok; simp [Except.map] at hok
          | ok lq2 =>
              have hpos := (pqRemoveFidE_isOk fid s.less_k_history).mp ⟨lq2, hrl⟩
              rw [hcl] at hpos
              simp [expLessS, hstore, hlk] at hpos
    · rw [if_neg hev] at hok
      simp only [Except.bind] at hok
      rw [if_neg (fun hcc => hev hcc.2)] at hok
      simp only [Except.map, Except.ok.injEq] at hok
      subst hok
      have hevf : node.is_evictable = false := by
        cases hb : node.is_evictable
        · rfl
        · exact absurd hb hev
      refine ⟨fun g => ⟨?_, ?_⟩, ?_, ?_, ?_⟩
      · rw [expLessS_insertFid]
        by_cases hg : fid = g
        · subst hg
          rw [if_pos rfl, hcl]
          simp [expLessS, hstore, hevf]
        · rw [if_neg hg]
          exact (hheap g).1
      · rw [expKS_insertFid]
        by_cases hg : fid = g
        · subst hg
          rw [if_pos rfl, hck]
          simp [expKS, hstore, hevf]
        · rw [if_neg hg]
          exact (hheap g).2
      · exact hsize
      · intro g n hg
        rw [lookupFid_insertFid] at hg
        by_cases h : fid = g
        · rw [if_pos h] at hg
          cases hg
          simpa [hlent] using hlen
        · rw [if_neg h] at hg
          exact hhist g n hg
      · intro g n hg
        rw [lookupFid_insertFid] at hg
        by_cases h : fid = g
        · rw [if_pos h] at hg
          cases hg
          simpa [hfid] using h
        · rw [if_neg h] at hg
          exact hfidinv g n hg
  · rw [if_neg hk] at hok
    simp only [Except.bind] at hok
    rw [hlen1] at hk
    by_cases hc : (node.history ++ [s.current_timestamp]).length = s.k ∧ node.is_evictable = true
    · rw [if_pos hc] at hok
      obtain ⟨hc1, hc2⟩ := hc
      rw [hlen1] at hc1
      cases hrl : pqRemoveFidE fid s.less_k_history with
      | error e => rw [hrl] at hok; simp [Except.map] at hok
      | ok lq2 =>
          rw [hrl] at hok
          simp only [Except.map, Except.ok.injEq] at hok
          subst hok
          obtain ⟨hr1, hr2, hr3⟩ := pqRemoveFidE_ok fid _ _ hrl
          have hless1 : countFid fid s.less_k_history = 1 := by
            rw [hcl]
            simp [expLessS, hstore, hc2]
            omega
          have hk0 : countFid fid s.k_history = 0 := by
            rw [hck]
            simp [expKS, hstore]
            intro _
            omega
          refine ⟨fun g => ⟨?_, ?_⟩, ?_, ?_, ?_⟩
          · rw [expLessS_insertFid]
            by_cases hg : fid = g
            · subst hg
              rw [if_pos rfl]
              have hrhs : ¬ ((LRUKNode.mk node.fid (node.history ++ [s.current_timestamp])
                  node.is_evictable node.k).is_evictable = true ∧
                  (node.history ++ [s.current_timestamp]).length < s.k) := by
                intro hh
                rw [hlen1] at hh
                omega
              rw [if_neg hrhs]
              show countFid fid lq2 = 0
              omega
            · rw [if_neg hg]
              rw [hr2 g (fun h => hg h.symm)]
              exact (hheap g).1
          · rw [expKS_insertFid]
            by_cases hg : fid = g
            · subst hg
              rw [if_pos rfl, countFid_pqPush]
              simp only [hfid, if_pos rfl]
              rw [hk0]
              have : (LRUKNode.mk node.fid (node.history ++ [s.current_timestamp])
                  node.is_evictable node.k).is_evictable = true ∧
                  s.k ≤ (node.history ++ [s.current_timestamp]).length := by
                refine ⟨hc2, ?_⟩
                rw [hlen1]
                omega
              rw [if_pos this]
              simp
            · rw [if_neg hg, countFid_pqPush]
              have : ¬ ((LRUKNode.mk node.fid (node.history ++ [s.current_timestamp])
                  node.is_evictable node.k).fid = g) := by
                simpa [hfid] using hg
              rw [if_neg this]
              simpa using (hheap g).2
          · show s.curr_size = lq2.length + (pqPush kKey _ s.k_history).length
            rw [length_pqPush]
            have hs : s.curr_size = s.less_k_history.length + s.k_history.length := hsize
            omega
          · intro g n hg
            rw [lookupFid_insertFid] at hg
            by_cases h : fid = g
            · rw [if_pos h] at hg
              cases hg
              show (node.history ++ [s.current_timestamp]).length ≤ s.k
              rw [hlen1]
              omega
            · rw [if_neg h] at hg
              exact hhist g n hg
          · intro g n hg
            rw [lookupFid_insertFid] at hg
            by_cases h : fid = g
            · rw [if_pos h] at hg
              cases hg
              simpa [hfid] using h
            · rw [if_neg h] at hg
              exact hfidinv g n hg
    · rw [if_neg hc] at hok
      simp only [Except.map, Except.ok.injEq] at hok
      subst hok
      refine ⟨fun g => ⟨?_, ?_⟩, ?_, ?_, ?_⟩
      · rw [expLessS_insertFid]
        by_cases hg : fid = g
        · subst hg
          rw [if_pos rfl, hcl]
          cases hb : node.is_evictable with
          | false => simp [expLessS, hstore, hb]
          | true =>
              have hne : ¬ (node.history ++ [s.current_timestamp]).length = s.k :=
                fun hh => hc ⟨hh, hb⟩
              rw [hlen1] at hne
              have hlt : node.history.length + 1 < s.k := by omega
              simp [expLessS, hstore, hb, hlt, Nat.lt_of_succ_lt hlt]
        · rw [if_neg hg]
          exact (hheap g).1
      · rw [expKS_insertFid]
        by_cases hg : fid = g
        · subst hg
          rw [if_pos rfl, hck]
          cases hb : node.is_evictable with
          | false => simp [expKS, hstore, hb]
          | true =>
              have hne : ¬ (node.history ++ [s.current_timestamp]).length = s.k :=
                fun hh => hc ⟨hh, hb⟩
              rw [hlen1] at hne
              have hlt : node.history.length + 1 < s.k := by omega
              have h1 : ¬ s.k ≤ node.history.length + 1 := by omega
              have h2 : ¬ s.k ≤ node.history.length := by omega
              simp [expKS, hstore, hb, h1, h2]
        · rw [if_neg hg]
          exact (hheap g).2
      · exact hsize
      · intro g n hg
        rw [lookupFid_insertFid] at hg
        by_cases h : fid = g
        · rw [if_pos h] at hg
          cases hg
          show (node.history ++ [s.current_timestamp]).length ≤ s.k
          rw [hlen1]
          omega
        · rw [if_neg h] at hg
          exact hhist g n hg
      · intro g n hg
        rw [lookupFid_insertFid] at hg
        by_cases h : fid = g
        · rw [if_pos h] at hg
          cases hg
          simpa [hfid] using h
        · rw [if_neg h] at hg
          exact hfidinv g n hg


/-! ### Wrapper lemmas for the operations -/

theorem histInvS_insertFid {k : Nat} {store : List (Nat × LRUKNode)} {fid : Nat}
    {n : LRUKNode} (hh : histInvS k store) (hn : n.history.length ≤ k) :
    histInvS k (insertFid store fid n) := by
  intro g m hg
  rw [lookupFid_insertFid] at hg
  by_cases h : fid = g
  · rw [if_pos h] at hg
    cases hg
    exact hn
  · rw [if_neg h] at hg
    exact hh g m hg

theorem fidInvS_insertFid {store : List (Nat × LRUKNode)} {fid : Nat}
    {n : LRUKNode} (hf : fidInvS store) (hn : n.fid = fid) :
    fidInvS (insertFid store fid n) := by
  intro g m hg
  rw [lookupFid_insertFid] at hg
  by_cases h : fid = g
  · rw [if_pos h] at hg
    cases hg
    rw [hn]
    exact h
  · rw [if_neg h] at hg
    exact hf g m hg

theorem cacheFindFid_fid {fid : Nat} {c : List (Nat × LRUKNode)} {key : Nat}
    {n : LRUKNode} (h : cacheFindFid fid c = some (key, n)) : n.fid = fid := by
  induction c with
  | nil => cases h
  | cons p rest ih =>
      obtain ⟨a, b⟩ := p
      simp only [cacheFindFid] at h
      split at h
      · rename_i hb
        cases h
        exact hb
      · exact ih h

/-- A successful `RecordAccess` preserves the state invariants. -/
theorem recordAccess_inv {s s' : LRUKReplacer} {fid : Nat}
    (hinv : Inv s) (hok : s.RecordAccess fid = .ok s') : Inv s' := by
  obtain ⟨hheap, hsize, hhist, hfidinv⟩ := hinv
  unfold LRUKReplacer.RecordAccess at hok
  split at hok
  · cases hok
  · cases hlu : lookupFid s.node_store fid with
    | some node =>
        rw [hlu] at hok
        exact recordCore_inv hlu (hfidinv fid node hlu) hheap hsize hhist hfidinv hok
    | none =>
        rw [hlu] at hok
        cases hcf : cacheFindFid fid s.cache_deleted_pages with
        | some p =>
            obtain ⟨key, n⟩ := p
            rw [hcf] at hok
            dsimp only at hok
            have hnf : n.fid = fid := cacheFindFid_fid hcf
            have hnf2 : ({ fid := n.fid, history := [], is_evictable := false, k := n.k } : LRUKNode).fid = fid := hnf
            refine recordCore_inv ?_ hnf2 ?_ hsize ?_ ?_ hok
            · rw [lookupFid_insertFid, if_pos rfl]
            · exact heapInvS_insert_nonEv hheap hlu rfl
            · exact histInvS_insertFid hhist (by simp)
            · exact fidInvS_insertFid hfidinv hnf
        | none =>
            rw [hcf] at hok
            dsimp only at hok
            refine recordCore_inv ?_ rfl ?_ hsize ?_ ?_ hok
            · rw [lookupFid_insertFid, if_pos rfl]
            · exact heapInvS_insert_nonEv hheap hlu rfl
            · exact histInvS_insertFid hhist (by simp [defaultNode])
            · exact fidInvS_insertFid hfidinv rfl


/-- A successful `SetEvictable` preserves the state invariants. -/
theorem setEvictable_inv {s s' : LRUKReplacer} {fid : Nat} {b : Bool}
    (hinv : Inv s) (hok : s.SetEvictable fid b = .ok s') : Inv s' := by
  obtain ⟨hheap, hsize, hhist, hfidinv⟩ := hinv
  unfold LRUKReplacer.SetEvictable at hok
  split at hok
  · cases hok
  · cases hlu : lookupFid s.node_store fid with
    | none =>
        rw [hlu] at hok
        dsimp only at hok
        cases hok
        exact ⟨hheap, hsize, hhist, hfidinv⟩
    | some node =>
        rw [hlu] at hok
        dsimp only at hok
        have hfid : node.fid = fid := hfidinv fid node hlu
        have hnlen : node.history.length ≤ s.k := hhist fid node hlu
        have hle : countFid fid s.less_k_history = expLessS s.k s.node_store fid :=
          (hheap fid).1
        have hke : countFid fid s.k_history = expKS s.k s.node_store fid :=
          (hheap fid).2
        have hs : s.curr_size = s.less_k_history.length + s.k_history.length := hsize
        by_cases hb1 : b = true ∧ node.is_evictable = false
        · rw [if_pos hb1] at hok
          obtain ⟨hb, hev⟩ := hb1
          by_cases hlk : node.history.length < s.k
          · rw [if_pos hlk, if_pos hlk] at hok
            cases hok
            refine ⟨fun g => ⟨?_, ?_⟩, ?_, ?_, ?_⟩
            · show countFid g (pqPush lessKKey _ s.less_k_history) =
                expLessS s.k (insertFid s.node_store fid _) g
              rw [countFid_pqPush, expLessS_insertFid]
              by_cases hg : fid = g
              · subst hg
                rw [if_pos rfl, hle]
                simp [expLessS, hlu, hev, hfid, hlk]
              · rw [if_neg hg]
                have h1 : ¬ node.fid = g := by rw [hfid]; exact hg
                simpa [h1] using (hheap g).1
            · show countFid g s.k_history = expKS s.k (insertFid s.node_store fid _) g
              rw [expKS_insertFid]
              by_cases hg : fid = g
              · subst hg
                rw [if_pos rfl, hke]
                have h2 : ¬ s.k ≤ node.history.length := by omega
                simp [expKS, hlu, hev, h2]
              · rw [if_neg hg]
                exact (hheap g).2
            · show s.curr_size + 1 =
                (pqPush lessKKey _ s.less_k_history).length + s.k_history.length
              rw [length_pqPush]
              omega
            · exact histInvS_insertFid hhist hnlen
            · exact fidInvS_insertFid hfidinv hfid
          · rw [if_neg hlk, if_neg hlk] at hok
            cases hok
            refine ⟨fun g => ⟨?_, ?_⟩, ?_, ?_, ?_⟩
            · show countFid g s.less_k_history =
                expLessS s.k (insertFid s.node_store fid _) g
              rw [expLessS_insertFid]
              by_cases hg : fid = g
              · subst hg
                rw [if_pos rfl, hle]
                simp [expLessS, hlu, hev, hlk]
              · rw [if_neg hg]
                exact (hheap g).1
            · show countFid g (pqPush kKey _ s.k_history) =
                expKS s.k (insertFid s.node_store fid _) g
              rw [countFid_pqPush, expKS_insertFid]
              by_cases hg : fid = g
              · subst hg
                rw [if_pos rfl, hke]
                have h2 : s.k ≤ node.history.length := by omega
                simp [expKS, hlu, hev, hfid, h2]
              · rw [if_neg hg]
                have h1 : ¬ node.fid = g := by rw [hfid]; exact hg
                simpa [h1] using (hheap g).2
            · show s.curr_size + 1 =
                s.less_k_history.length + (pqPush kKey _ s.k_history).length
              rw [length_pqPush]
              omega
            · exact histInvS_insertFid hhist hnlen
            · exact fidInvS_insertFid hfidinv hfid
        · rw [if_neg hb1] at hok
          by_cases hb2 : b = false ∧ node.is_evictable = true
          · rw [if_pos hb2] at hok
            obtain ⟨hb, hev⟩ := hb2
            by_cases hr : (pqRemoveFidOpt fid s.k_history).1 = true
            · rw [if_pos hr] at hok
              cases hok
              obtain ⟨ht1, ht2, ht3⟩ := pqRemoveFidOpt_true fid s.k_history hr
              have hcond : s.k ≤ node.history.length := by
                by_contra hno
                have h0 : countFid fid s.k_history = 0 := by
                  rw [hke]
                  simp only [expKS, hlu]
                  rw [if_neg (fun hh => hno hh.2)]
                omega
              have hv : expKS s.k s.node_store fid = 1 := by
                simp only [expKS, hlu]
                rw [if_pos ⟨hev, hcond⟩]
              refine ⟨fun g => ⟨?_, ?_⟩, ?_, ?_, ?_⟩
              · show countFid g s.less_k_history =
                  expLessS s.k (insertFid s.node_store fid _) g
                rw [expLessS_insertFid]
                by_cases hg : fid = g
                · subst hg
                  rw [if_pos rfl, hle]
                  have hnl : ¬ node.history.length < s.k := by omega
                  simp [expLessS, hlu, hnl]
                · rw [if_neg hg]
                  exact (hheap g).1
              · show countFid g (pqRemoveFidOpt fid s.k_history).2 =
                  expKS s.k (insertFid s.node_store fid _) g
                rw [expKS_insertFid]
                by_cases hg : fid = g
                · subst hg
                  rw [if_pos rfl]
                  simp only [LRUKNode.mk.injEq]
                  have : countFid fid (pqRemoveFidOpt fid s.k_history).2 = 0 := by omega
                  rw [this]
                  simp
                · rw [if_neg hg]
                  rw [ht2 g (fun h => hg h.symm)]
                  exact (hheap g).2
              · show s.curr_size - 1 =
                  s.less_k_history.length + (pqRemoveFidOpt fid s.k_history).2.length
                omega
              · exact histInvS_insertFid hhist hnlen
              · exact fidInvS_insertFid hfidinv hfid
            · rw [if_neg hr] at hok
              have hr0 : (pqRemoveFidOpt fid s.k_history).1 = false := by
                revert hr
                cases (pqRemoveFidOpt fid s.k_history).1 <;> simp
              obtain ⟨hf1, hf2⟩ := pqRemoveFidOpt_false fid s.k_history hr0
              have hkz : expKS s.k s.node_store fid = 0 := by rw [← hke]; exact hf2
              have hnl : node.history.length < s.k := by
                by_contra hno
                simp only [expKS, hlu] at hkz
                rw [if_pos ⟨hev, by omega⟩] at hkz
                cases hkz
              have hl1 : countFid fid s.less_k_history = 1 := by
                rw [hle]
                simp only [expLessS, hlu]
                rw [if_pos ⟨hev, hnl⟩]
              cases hre : pqRemoveFidE fid s.less_k_history with
              | error e => rw [hre] at hok; cases hok
              | ok lq2 =>
                  rw [hre] at hok
                  simp only [Except.map, Except.ok.injEq] at hok
                  subst hok
                  obtain ⟨he1, he2, he3⟩ := pqRemoveFidE_ok fid _ _ hre
                  refine ⟨fun g => ⟨?_, ?_⟩, ?_, ?_, ?_⟩
                  · show countFid g lq2 =
                      expLessS s.k (insertFid s.node_store fid _) g
                    rw [expLessS_insertFid]
                    by_cases hg : fid = g
                    · subst hg
                      rw [if_pos rfl]
                      have : countFid fid lq2 = 0 := by omega
                      rw [this]
                      simp
                    · rw [if_neg hg]
                      rw [he2 g (fun h => hg h.symm)]
                      exact (hheap g).1
                  · show countFid g s.k_history =
                      expKS s.k (insertFid s.node_store fid _) g
                    rw [expKS_insertFid]
                    by_cases hg : fid = g
                    · subst hg
                      rw [if_pos rfl, hke, hkz]
                      simp
                    · rw [if_neg hg]
                      exact (hheap g).2
                  · show s.curr_size - 1 = lq2.length + s.k_history.length
                    omega
                  · exact histInvS_insertFid hhist hnlen
                  · exact fidInvS_insertFid hfidinv hfid
          · rw [if_neg hb2] at hok
            cases hok
            refine ⟨fun g => ⟨?_, ?_⟩, ?_, ?_, ?_⟩
            · show countFid g s.less_k_history =
                expLessS s.k (insertFid s.node_store fid node) g
              rw [expLessS_insertFid]
              by_cases hg : fid = g
              · subst hg
                rw [if_pos rfl, hle]
                simp [expLessS, hlu]
              · rw [if_neg hg]
                exact (hheap g).1
            · show countFid g s.k_history =
                expKS s.k (insertFid s.node_store fid node) g
              rw [expKS_insertFid]
              by_cases hg : fid = g
              · subst hg
                rw [if_pos rfl, hke]
                simp [expKS, hlu]
              · rw [if_neg hg]
                exact (hheap g).2
            · exact hsize
            · exact histInvS_insertFid hhist hnlen
            · exact fidInvS_insertFid hfidinv hfid


theorem expLessS_le_one (k : Nat) (store : List (Nat × LRUKNode)) (f : Nat) :
    expLessS k store f ≤ 1 := by
  unfold expLessS
  split
  all_goals first
  | simp
  | (split <;> simp)

theorem expKS_le_one (k : Nat) (store : List (Nat × LRUKNode)) (f : Nat) :
    expKS k store f ≤ 1 := by
  unfold expKS
  split
  all_goals first
  | simp
  | (split <;> simp)

theorem expLessS_eq_one {k : Nat} {store : List (Nat × LRUKNode)} {f : Nat}
    (h : expLessS k store f = 1) :
    ∃ m, lookupFid store f = some m ∧ m.is_evictable = true ∧ m.history.length < k := by
  unfold expLessS at h
  cases hlu : lookupFid store f with
  | none => rw [hlu] at h; cases h
  | some m =>
      rw [hlu] at h
      dsimp only at h
      refine ⟨m, rfl, ?_⟩
      by_cases hc : m.is_evictable = true ∧ m.history.length < k
      · exact hc
      · rw [if_neg hc] at h
        cases h

theorem expKS_eq_one {k : Nat} {store : List (Nat × LRUKNode)} {f : Nat}
    (h : expKS k store f = 1) :
    ∃ m, lookupFid store f = some m ∧ m.is_evictable = true ∧ k ≤ m.history.length := by
  unfold expKS at h
  cases hlu : lookupFid store f with
  | none => rw [hlu] at h; cases h
  | some m =>
      rw [hlu] at h
      dsimp only at h
      refine ⟨m, rfl, ?_⟩
      by_cases hc : m.is_evictable = true ∧ k ≤ m.history.length
      · exact hc
      · rw [if_neg hc] at h
        cases h

/-- A successful `Evict` preserves the state invariants. -/
theorem evict_inv {s s' : LRUKReplacer} {r : Option Nat}
    (hinv : Inv s) (hok : s.Evict = .ok (r, s')) : Inv s' := by
  obtain ⟨hheap, hsize, hhist, hfidinv⟩ := hinv
  have hs : s.curr_size = s.less_k_history.length + s.k_history.length := hsize
  unfold LRUKReplacer.Evict LRUKReplacer.Evict.finish at hok
  split at hok
  · rw [Except.ok.injEq, Prod.mk.injEq] at hok
    obtain ⟨h1, h2⟩ := hok
    subst h2
    exact ⟨hheap, hsize, hhist, hfidinv⟩
  · cases hle : s.less_k_history with
    | cons e rest =>
        rw [hle] at hok
        dsimp only at hok
        rw [Except.ok.injEq, Prod.mk.injEq] at hok
        obtain ⟨h1, h2⟩ := hok
        subst h2
        have hcnt : countFid e.fid s.less_k_history = 1 + countFid e.fid rest := by
          rw [hle]
          simp [countFid]
        have hexp := (hheap e.fid).1
        have hone : expLessS s.k s.node_store e.fid = 1 := by
          have := expLessS_le_one s.k s.node_store e.fid
          omega
        have hrest : countFid e.fid rest = 0 := by omega
        obtain ⟨m, hm, hmev, hmlt⟩ := expLessS_eq_one hone
        have hk0 : countFid e.fid s.k_history = 0 := by
          rw [(hheap e.fid).2]
          simp only [expKS, hm]
          rw [if_neg (fun hh => by omega)]
        rw [hle] at hs
        simp only [List.length_cons] at hs
        refine ⟨fun g => ⟨?_, ?_⟩, ?_, ?_, ?_⟩
        · show countFid g rest = expLessS s.k (eraseFid s.node_store e.fid) g
          rw [expLessS_eraseFid]
          by_cases hg : g = e.fid
          · subst hg
            rw [if_pos rfl]
            exact hrest
          · rw [if_neg hg]
            have hgc : countFid g s.less_k_history = countFid g rest := by
              rw [hle]
              simp only [countFid]
              rw [if_neg (fun h => hg h.symm)]
              omega
            rw [← hgc]
            exact (hheap g).1
        · show countFid g s.k_history = expKS s.k (eraseFid s.node_store e.fid) g
          rw [expKS_eraseFid]
          by_cases hg : g = e.fid
          · subst hg
            rw [if_pos rfl]
            exact hk0
          · rw [if_neg hg]
            exact (hheap g).2
        · show s.curr_size - 1 = rest.length + s.k_history.length
          omega
        · intro g n hg
          rw [lookupFid_eraseFid] at hg
          by_cases hg2 : g = e.fid
          · rw [if_pos hg2] at hg
            cases hg
          · rw [if_neg hg2] at hg
            exact hhist g n hg
        · intro g n hg
          rw [lookupFid_eraseFid] at hg
          by_cases hg2 : g = e.fid
          · rw [if_pos hg2] at hg
            cases hg
          · rw [if_neg hg2] at hg
            exact hfidinv g n hg
    | nil =>
        rw [hle] at hok
        dsimp only at hok
        cases hke : s.k_history with
        | nil => rw [hke] at hok; cases hok
        | cons e rest =>
            rw [hke] at hok
            dsimp only at hok
            rw [Except.ok.injEq, Prod.mk.injEq] at hok
            obtain ⟨h1, h2⟩ := hok
            subst h2
            have hcnt : countFid e.fid s.k_history = 1 + countFid e.fid rest := by
              rw [hke]
              simp [countFid]
            have hexp := (hheap e.fid).2
            have hone : expKS s.k s.node_store e.fid = 1 := by
              have := expKS_le_one s.k s.node_store e.fid
              omega
            have hrest : countFid e.fid rest = 0 := by omega
            obtain ⟨m, hm, hmev, hmge⟩ := expKS_eq_one hone
            rw [hle, hke] at hs
            simp only [List.length_cons, List.length_nil] at hs
            refine ⟨fun g => ⟨?_, ?_⟩, ?_, ?_, ?_⟩
            · show countFid g ([] : List LRUKNode) =
                expLessS s.k (eraseFid s.node_store e.fid) g
              rw [expLessS_eraseFid]
              by_cases hg : g = e.fid
              · rw [if_pos hg]
                simp [countFid]
              · rw [if_neg hg]
                have := (hheap g).1
                rw [hle] at this
                exact this
            · show countFid g rest = expKS s.k (eraseFid s.node_store e.fid) g
              rw [expKS_eraseFid]
              by_cases hg : g = e.fid
              · subst hg
                rw [if_pos rfl]
                exact hrest
              · rw [if_neg hg]
                have hgc : countFid g s.k_history = countFid g rest := by
                  rw [hke]
                  simp only [countFid]
                  rw [if_neg (fun h => hg h.symm)]
                  omega
                rw [← hgc]
                exact (hheap g).2
            · show s.curr_size - 1 = ([] : List LRUKNode).length + rest.length
              simp only [List.length_nil]
              omega
            · intro g n hg
              rw [lookupFid_eraseFid] at hg
              by_cases hg2 : g = e.fid
              · rw [if_pos hg2] at hg
                cases hg
              · rw [if_neg hg2] at hg
                exact hhist g n hg
            · intro g n hg
              rw [lookupFid_eraseFid] at hg
              by_cases hg2 : g = e.fid
              · rw [if_pos hg2] at hg
                cases hg
              · rw [if_neg hg2] at hg
                exact hfidinv g n hg


/-- The freshly constructed replacer satisfies the invariants. -/
theorem inv_mkReplacer (n k cap : Nat) : Inv (mkReplacer n k cap) := by
  refine ⟨fun f => ⟨rfl, rfl⟩, rfl, fun f m h => ?_, fun f m h => ?_⟩ <;> cases h

/-- Any remove-free run preserves the state invariants. -/
theorem run_inv {ops : List Op} {s s' : LRUKReplacer}
    (hnr : NoRemove ops) (hinv : Inv s) (hok : run ops s = .ok s') : Inv s' := by
  induction ops generalizing s with
  | nil =>
      cases hok
      exact hinv
  | cons o rest ih =>
      simp only [run] at hok
      cases hstep : step o s with
      | error e => rw [hstep] at hok; cases hok
      | ok s1 =>
          rw [hstep] at hok
          have hinv1 : Inv s1 := by
            cases o with
            | acc fid =>
                simp only [step] at hstep
                exact recordAccess_inv hinv hstep
            | setEv fid b =>
                simp only [step] at hstep
                exact setEvictable_inv hinv hstep
            | evict =>
                simp only [step] at hstep
                cases hev : s.Evict with
                | error e => rw [hev] at hstep; cases hstep
                | ok p =>
                    obtain ⟨r0, s0⟩ := p
                    rw [hev] at hstep
                    simp only [Except.map, Except.ok.injEq] at hstep
                    subst hstep
                    exact evict_inv hinv hev
            | rem fid =>
                have := hnr (Op.rem fid) (List.mem_cons_self _ _)
                simp [Op.isRem] at this
          exact ih (fun o2 ho2 => hnr o2 (List.mem_cons_of_mem _ ho2)) hinv1 hok

/-- Any remove-free run from a fresh replacer reaches an invariant state. -/
theorem reach_inv {ops : List Op} {n k cap : Nat} {s : LRUKReplacer}
    (hnr : NoRemove ops) (hok : run ops (mkReplacer n k cap) = .ok s) : Inv s :=
  run_inv hnr (inv_mkReplacer n k cap) hok


/-! ### Shape lemmas: what a successful operation does to the state -/

/-- The shape of a successful `recordCore`: the node is written back with the
appended (and possibly trimmed) history, the cache and timestamp are updated,
and the other scalar fields are untouched. -/
theorem recordCore_shape {s : LRUKReplacer} {fid : Nat} {node : LRUKNode}
    {store0 cache0 : List (Nat × LRUKNode)} {s' : LRUKReplacer}
    (hok : LRUKReplacer.recordCore s fid node store0 cache0 = .ok s') :
    ∃ lq kq,
      s' = { s with
        node_store := insertFid store0 fid
          { node with history :=
              if s.k < (node.history ++ [s.current_timestamp]).length
              then (node.history ++ [s.current_timestamp]).tail
              else node.history ++ [s.current_timestamp] },
        cache_deleted_pages := cache0,
        less_k_history := lq,
        k_history := kq,
        current_timestamp := s.current_timestamp + 1 } := by
  unfold LRUKReplacer.recordCore at hok
  by_cases hk : s.k < (node.history ++ [s.current_timestamp]).length
  · rw [if_pos hk] at hok ⊢
    by_cases hc : (node.history ++ [s.current_timestamp]).tail.length = s.k ∧
        node.is_evictable = true
    · by_cases hev : node.is_evictable = true
      · rw [if_pos hev] at hok
        cases hrk : pqRemoveFidE fid s.k_history with
        | error e => rw [hrk] at hok; simp [Except.map, Except.bind] at hok
        | ok kq2 =>
            rw [hrk] at hok
            simp only [Except.map, Except.bind] at hok
            rw [if_pos hc] at hok
            cases hrl : pqRemoveFidE fid s.less_k_history with
            | error e => rw [hrl] at hok; simp [Except.map] at hok
            | ok lq2 =>
                rw [hrl] at hok
                simp only [Except.map, Except.ok.injEq] at hok
                exact ⟨_, _, hok.symm⟩
      · exact absurd hc.2 hev
    · by_cases hev : node.is_evictable = true
      · rw [if_pos hev] at hok
        cases hrk : pqRemoveFidE fid s.k_history with
        | error e => rw [hrk] at hok; simp [Except.map, Except.bind] at hok
        | ok kq2 =>
            rw [hrk] at hok
            simp only [Except.map, Except.bind] at hok
            rw [if_neg hc] at hok
            simp only [Except.map, Except.ok.injEq] at hok
            exact ⟨_, _, hok.symm⟩
      · rw [if_neg hev] at hok
        simp only [Except.bind] at hok
        rw [if_neg hc] at hok
        simp only [Except.map, Except.ok.injEq] at hok
        exact ⟨_, _, hok.symm⟩
  · rw [if_neg hk] at hok ⊢
    simp only [Except.bind] at hok
    by_cases hc : (node.history ++ [s.current_timestamp]).length = s.k ∧
        node.is_evictable = true
    · rw [if_pos hc] at hok
      cases hrl : pqRemoveFidE fid s.less_k_history with
      | error e => rw [hrl] at hok; simp [Except.map] at hok
      | ok lq2 =>
          rw [hrl] at hok
          simp only [Except.map, Except.ok.injEq] at hok
          exact ⟨_, _, hok.symm⟩
    · rw [if_neg hc] at hok
      simp only [Except.map, Except.ok.injEq] at hok
      exact ⟨_, _, hok.symm⟩

/-- A successful `RecordAccess` advances the clock by one, keeps the scalar
configuration, and only ever shrinks the evicted-page cache (by consuming the
restored entry). -/
theorem recordAccess_shape {s s' : LRUKReplacer} {fid : Nat}
    (hok : s.RecordAccess fid = .ok s') :
    s'.cache_cap = s.cache_cap ∧ s'.k = s.k ∧ s'.replacer_size = s.replacer_size ∧
    s'.current_timestamp = s.current_timestamp + 1 ∧
    (s'.cache_deleted_pages = s.cache_deleted_pages ∨
     ∃ key, s'.cache_deleted_pages = cacheEraseKey key s.cache_deleted_pages) := by
  unfold LRUKReplacer.RecordAccess at hok
  split at hok
  · cases hok
  · cases hlu : lookupFid s.node_store fid with
    | some node =>
        rw [hlu] at hok
        obtain ⟨lq, kq, hsh⟩ := recordCore_shape hok
        subst hsh
        exact ⟨rfl, rfl, rfl, rfl, Or.inl rfl⟩
    | none =>
        rw [hlu] at hok
        cases hcf : cacheFindFid fid s.cache_deleted_pages with
        | some p =>
            obtain ⟨key, n⟩ := p
            rw [hcf] at hok
            dsimp only at hok
            obtain ⟨lq, kq, hsh⟩ := recordCore_shape hok
            subst hsh
            exact ⟨rfl, rfl, rfl, rfl, Or.inr ⟨key, rfl⟩⟩
        | none =>
            rw [hcf] at hok
            dsimp only at hok
            obtain ⟨lq, kq, hsh⟩ := recordCore_shape hok
            subst hsh
            exact ⟨rfl, rfl, rfl, rfl, Or.inl rfl⟩

/-- A successful `SetEvictable` never touches the evicted-page cache and
advances the clock by at most one. -/
theorem setEvictable_shape {s s' : LRUKReplacer} {fid : Nat} {b : Bool}
    (hok : s.SetEvictable fid b = .ok s') :
    s'.cache_deleted_pages = s.cache_deleted_pages ∧
    s'.cache_cap = s.cache_cap ∧ s'.k = s.k ∧ s'.replacer_size = s.replacer_size ∧
    (s'.current_timestamp = s.current_timestamp ∨
     s'.current_timestamp = s.current_timestamp + 1) := by
  unfold LRUKReplacer.SetEvictable at hok
  split at hok
  · cases hok
  · cases hlu : lookupFid s.node_store fid with
    | none =>
        rw [hlu] at hok
        dsimp only at hok
        cases hok
        exact ⟨rfl, rfl, rfl, rfl, Or.inl rfl⟩
    | some node =>
        rw [hlu] at hok
        dsimp only at hok
        split at hok
        · cases hok
          exact ⟨rfl, rfl, rfl, rfl, Or.inr rfl⟩
        · split at hok
          · split at hok
            · cases hok
              exact ⟨rfl, rfl, rfl, rfl, Or.inr rfl⟩
            · cases hre : pqRemoveFidE fid s.less_k_history with
              | error e => rw [hre] at hok; cases hok
              | ok lq2 =>
                  rw [hre] at hok
                  simp only [Except.map, Except.ok.injEq] at hok
                  subst hok
                  exact ⟨rfl, rfl, rfl, rfl, Or.inr rfl⟩
          · cases hok
            exact ⟨rfl, rfl, rfl, rfl, Or.inr rfl⟩

/-- The shape of a successful `Evict`: either nothing was evictable and the
state is unchanged, or the victim's node moved from the store into the
evicted-page cache. -/
theorem evict_shape {s s' : LRUKReplacer} {r : Option Nat}
    (hok : s.Evict = .ok (r, s')) :
    (r = none ∧ s' = s ∧ s.curr_size = 0) ∨
    (∃ f lq kq, r = some f ∧
      s' = { s with
        node_store := eraseFid s.node_store f,
        less_k_history := lq,
        k_history := kq,
        cache_deleted_pages := cacheTrim s.cache_cap
          (cacheInsert s.current_timestamp
            ((lookupFid s.node_store f).getD defaultNode) s.cache_deleted_pages),
        curr_size := s.curr_size - 1,
        current_timestamp := s.current_timestamp + 1 }) := by
  unfold LRUKReplacer.Evict LRUKReplacer.Evict.finish at hok
  split at hok
  · rw [Except.ok.injEq, Prod.mk.injEq] at hok
    obtain ⟨h1, h2⟩ := hok
    rename_i hz
    exact Or.inl ⟨h1.symm, h2.symm, hz⟩
  · cases hle : s.less_k_history with
    | cons e rest =>
        rw [hle] at hok
        dsimp only at hok
        rw [Except.ok.injEq, Prod.mk.injEq] at hok
        obtain ⟨h1, h2⟩ := hok
        exact Or.inr ⟨e.fid, rest, s.k_history, h1.symm, h2.symm⟩
    | nil =>
        rw [hle] at hok
        dsimp only at hok
        cases hke : s.k_history with
        | nil => rw [hke] at hok; cases hok
        | cons e rest =>
            rw [hke] at hok
            dsimp only at hok
            rw [Except.ok.injEq, Prod.mk.injEq] at hok
            obtain ⟨h1, h2⟩ := hok
            exact Or.inr ⟨e.fid, [], rest, h1.symm, h2.symm⟩

/-- The shape of a successful `Remove`: a no-op for untracked frames, and for
tracked evictable frames the node moves from the store into the evicted-page
cache (the priority queues are not touched). -/
theorem remove_shape {s s' : LRUKReplacer} {fid : Nat}
    (hok : s.Remove fid = .ok s') :
    (lookupFid s.node_store fid = none ∧ s' = s) ∨
    (∃ node, lookupFid s.node_store fid = some node ∧ node.is_evictable = true ∧
      s' = { s with
        cache_deleted_pages := cacheTrim s.cache_cap
          (cacheInsert s.current_timestamp node s.cache_deleted_pages),
        current_timestamp := s.current_timestamp + 1,
        curr_size := s.curr_size - 1,
        node_store := eraseFid s.node_store fid }) := by
  unfold LRUKReplacer.Remove at hok
  split at hok
  · cases hok
  · cases hlu : lookupFid s.node_store fid with
    | none =>
        rw [hlu] at hok
        dsimp only at hok
        cases hok
        exact Or.inl ⟨rfl, rfl⟩
    | some node =>
        rw [hlu] at hok
        dsimp only at hok
        split at hok
        · cases hok
        · rename_i hev
          rw [Except.ok.injEq] at hok
          refine Or.inr ⟨node, rfl, ?_, hok.symm⟩
          cases hb : node.is_evictable
          · exact absurd hb hev
          · rfl


/-! ### The evicted-page cache invariant -/

/-- Cache facts holding in every reachable state: the capacity bound, keys in
strictly increasing order (`std::map`), and keys below the current clock. -/
def CacheInv (s : LRUKReplacer) : Prop :=
  s.cache_deleted_pages.length ≤ s.cache_cap ∧
  List.Pairwise (fun p q => p.1 < q.1) s.cache_deleted_pages ∧
  ∀ p ∈ s.cache_deleted_pages, p.1 < s.current_timestamp

theorem cacheEraseKey_sublist (key : Nat) (c : List (Nat × LRUKNode)) :
    (cacheEraseKey key c).Sublist c := by
  induction c with
  | nil => simp [cacheEraseKey]
  | cons p rest ih =>
      obtain ⟨a, b⟩ := p
      simp only [cacheEraseKey]
      split
      · exact ih.cons _
      · exact ih.cons₂ _

theorem cacheInsert_fresh {key : Nat} {c : List (Nat × LRUKNode)} (v : LRUKNode)
    (h : ∀ p ∈ c, p.1 < key) : cacheInsert key v c = c ++ [(key, v)] := by
  induction c with
  | nil => rfl
  | cons p rest ih =>
      obtain ⟨a, b⟩ := p
      have ha : a < key := h (a, b) (by simp)
      simp only [cacheInsert]
      rw [if_neg (by omega), if_neg (by omega)]
      rw [ih (fun q hq => h q (by simp [hq]))]
      simp

theorem cacheTrim_length {cap : Nat} {c : List (Nat × LRUKNode)}
    (h : c.length ≤ cap + 1) : (cacheTrim cap c).length ≤ cap := by
  unfold cacheTrim
  split
  · rw [List.length_tail]
    omega
  · omega

theorem cacheTrim_sublist (cap : Nat) (c : List (Nat × LRUKNode)) :
    (cacheTrim cap c).Sublist c := by
  unfold cacheTrim
  split
  · exact List.tail_sublist c
  · exact List.Sublist.refl c

/-- The insert-then-trim performed by `Evict` and `Remove` preserves the
cache facts. -/
theorem cacheStep_inv {cap ts : Nat} {c : List (Nat × LRUKNode)} (v : LRUKNode)
    (hlen : c.length ≤ cap)
    (hpw : List.Pairwise (fun p q => p.1 < q.1) c)
    (hfresh : ∀ p ∈ c, p.1 < ts) :
    (cacheTrim cap (cacheInsert ts v c)).length ≤ cap ∧
    List.Pairwise (fun p q => p.1 < q.1) (cacheTrim cap (cacheInsert ts v c)) ∧
    ∀ p ∈ cacheTrim cap (cacheInsert ts v c), p.1 < ts + 1 := by
  rw [cacheInsert_fresh v hfresh]
  have hsub := cacheTrim_sublist cap (c ++ [(ts, v)])
  have hap : List.Pairwise (fun p q => p.1 < q.1) (c ++ [(ts, v)]) := by
    rw [List.pairwise_append]
    refine ⟨hpw, List.pairwise_singleton _ _, fun p hp q hq => ?_⟩
    simp only [List.mem_singleton] at hq
    rw [hq]
    exact hfresh p hp
  refine ⟨cacheTrim_length (by simpa using hlen), hap.sublist hsub, fun p hp => ?_⟩
  have hmem := hsub.subset hp
  simp only [List.mem_append, List.mem_singleton] at hmem
  rcases hmem with h | h
  · have := hfresh p h
    omega
  · rw [h]
    omega

/-- One step of any operation preserves the cache invariant. -/
theorem step_cacheInv {o : Op} {s s' : LRUKReplacer}
    (hc : CacheInv s) (hok : step o s = .ok s') : CacheInv s' := by
  obtain ⟨h1, h2, h3⟩ := hc
  cases o with
  | acc fid =>
      simp only [step] at hok
      obtain ⟨hcap, hk, hrs, hts, hcc⟩ := recordAccess_shape hok
      rcases hcc with hcc | ⟨key, hcc⟩
      · refine ⟨by rw [hcc, hcap]; exact h1, by rw [hcc]; exact h2, fun p hp => ?_⟩
        rw [hcc] at hp
        have := h3 p hp
        omega
      · have hsub := cacheEraseKey_sublist key s.cache_deleted_pages
        refine ⟨?_, by rw [hcc]; exact h2.sublist hsub, fun p hp => ?_⟩
        · rw [hcc, hcap]
          exact le_trans hsub.length_le h1
        · rw [hcc] at hp
          have := h3 p (hsub.subset hp)
          omega
  | setEv fid b =>
      simp only [step] at hok
      obtain ⟨hcc, hcap, hk, hrs, hts⟩ := setEvictable_shape hok
      refine ⟨by rw [hcc, hcap]; exact h1, by rw [hcc]; exact h2, fun p hp => ?_⟩
      rw [hcc] at hp
      have := h3 p hp
      rcases hts with hts | hts <;> omega
  | evict =>
      simp only [step] at hok
      cases hev : s.Evict with
      | error e => rw [hev] at hok; cases hok
      | ok p =>
          obtain ⟨r0, s0⟩ := p
          rw [hev] at hok
          simp only [Except.map, Except.ok.injEq] at hok
          subst hok
          rcases evict_shape hev with ⟨hr, hse, hz⟩ | ⟨f, lq, kq, hr, hse⟩
          · rw [hse]
            exact ⟨h1, h2, h3⟩
          · subst hse
            exact cacheStep_inv _ h1 h2 h3
  | rem fid =>
      simp only [step] at hok
      rcases remove_shape hok with ⟨hlu, hse⟩ | ⟨node, hlu, hev2, hse⟩
      · rw [hse]
        exact ⟨h1, h2, h3⟩
      · subst hse
        exact cacheStep_inv _ h1 h2 h3

/-- Any run from a fresh replacer satisfies the cache invariant. -/
theorem reach_cacheInv {ops : List Op} {n k cap : Nat} {s : LRUKReplacer}
    (hok : run ops (mkReplacer n k cap) = .ok s) : CacheInv s := by
  have hbase : CacheInv (mkReplacer n k cap) :=
    ⟨by simp [mkReplacer], List.Pairwise.nil, by simp [mkReplacer]⟩
  have h : ∀ (l : List Op) (t t' : LRUKReplacer), CacheInv t → run l t = .ok t' →
      CacheInv t' := by
    intro l
    induction l with
    | nil =>
        intro t t' hct hok2
        cases hok2
        exact hct
    | cons o rest ih =>
        intro t t' hct hok2
        simp only [run] at hok2
        cases hstep : step o t with
        | error e => rw [hstep] at hok2; cases hok2
        | ok t1 =>
            rw [hstep] at hok2
            exact ih t1 t' (step_cacheInv hct hstep) hok2
  exact h ops (mkReplacer n k cap) s hbase hok


theorem onlyAccessSet_noRemove {ops : List Op} (h : OnlyAccessSet ops) :
    NoRemove ops := by
  intro o ho
  have := h o ho
  cases o <;> simp_all [Op.isAccSet, Op.isRem]

/-- One step keeps the configuration constants. -/
theorem step_params {o : Op} {s s' : LRUKReplacer} (hok : step o s = .ok s') :
    s'.k = s.k ∧ s'.replacer_size = s.replacer_size ∧ s'.cache_cap = s.cache_cap := by
  cases o with
  | acc fid =>
      simp only [step] at hok
      obtain ⟨hcap, hk, hrs, _, _⟩ := recordAccess_shape hok
      exact ⟨hk, hrs, hcap⟩
  | setEv fid b =>
      simp only [step] at hok
      obtain ⟨_, hcap, hk, hrs, _⟩ := setEvictable_shape hok
      exact ⟨hk, hrs, hcap⟩
  | evict =>
      simp only [step] at hok
      cases hev : s.Evict with
      | error e => rw [hev] at hok; cases hok
      | ok p =>
          obtain ⟨r0, s0⟩ := p
          rw [hev] at hok
          simp only [Except.map, Except.ok.injEq] at hok
          subst hok
          rcases evict_shape hev with ⟨_, hse, _⟩ | ⟨f, lq, kq, _, hse⟩ <;>
            subst hse <;> exact ⟨rfl, rfl, rfl⟩
  | rem fid =>
      simp only [step] at hok
      rcases remove_shape hok with ⟨_, hse⟩ | ⟨node, _, _, hse⟩ <;>
        subst hse <;> exact ⟨rfl, rfl, rfl⟩

/-- A run keeps the configuration constants. -/
theorem run_params {ops : List Op} {s s' : LRUKReplacer}
    (hok : run ops s = .ok s') :
    s'.k = s.k ∧ s'.replacer_size = s.replacer_size ∧ s'.cache_cap = s.cache_cap := by
  induction ops generalizing s with
  | nil =>
      cases hok
      exact ⟨rfl, rfl, rfl⟩
  | cons o rest ih =>
      simp only [run] at hok
      cases hstep : step o s with
      | error e => rw [hstep] at hok; cases hok
      | ok s1 =>
          rw [hstep] at hok
          obtain ⟨h1, h2, h3⟩ := step_params hstep
          obtain ⟨g1, g2, g3⟩ := ih hok
          exact ⟨g1.trans h1, g2.trans h2, g3.trans h3⟩


theorem lookupFid_insertFid_self (st : List (Nat × LRUKNode)) (f : Nat)
    (n : LRUKNode) : lookupFid (insertFid st f n) f = some n := by
  rw [lookupFid_insertFid, if_pos rfl]

/-! ### The claims -/

/-- The history the store records for a frame, `[]` when untracked. -/
def storedHistory (s : LRUKReplacer) (fid : Nat) : List Nat :=
  match lookupFid s.node_store fid with
  | some n => n.history
  | none => []

/-- C6: for every frame and after every remove-free sequence of calls
(which includes every sequence of `record_access` calls), the frame's
recorded access history contains at most K timestamps; and `record_access`
appends the current logical timestamp, dropping the oldest entry whenever
the history would exceed K. -/
theorem claim_C6_history_bounded (n k cap : Nat) (ops : List Op) (s : LRUKReplacer)
    (hnr : NoRemove ops) (hok : run ops (mkReplacer n k cap) = .ok s) :
    (∀ f node, lookupFid s.node_store f = some node → node.history.length ≤ k) ∧
    (∀ fid s2, s.RecordAccess fid = .ok s2 →
      ∃ node, lookupFid s2.node_store fid = some node ∧
        node.history =
          (if k < (storedHistory s fid ++ [s.current_timestamp]).length
           then (storedHistory s fid ++ [s.current_timestamp]).tail
           else storedHistory s fid ++ [s.current_timestamp])) := by
  have hk : s.k = k := (run_params hok).1
  obtain ⟨hheap, hsize, hhist, hfidinv⟩ := reach_inv hnr hok
  constructor
  · intro f node hlu
    have := hhist f node hlu
    omega
  · intro fid s2 hok2
    unfold LRUKReplacer.RecordAccess at hok2
    split at hok2
    · cases hok2
    · cases hlu : lookupFid s.node_store fid with
      | some node =>
          rw [hlu] at hok2
          obtain ⟨lq, kq, hsh⟩ := recordCore_shape hok2
          subst hsh
          refine ⟨_, lookupFid_insertFid_self _ _ _, ?_⟩
          rw [hk]
          simp [storedHistory, hlu]
      | none =>
          rw [hlu] at hok2
          cases hcf : cacheFindFid fid s.cache_deleted_pages with
          | some p =>
              obtain ⟨key, nn⟩ := p
              rw [hcf] at hok2
              dsimp only at hok2
              obtain ⟨lq, kq, hsh⟩ := recordCore_shape hok2
              subst hsh
              refine ⟨_, lookupFid_insertFid_self _ _ _, ?_⟩
              rw [hk]
              simp [storedHistory, hlu]
          | none =>
              rw [hcf] at hok2
              dsimp only at hok2
              obtain ⟨lq, kq, hsh⟩ := recordCore_shape hok2
              subst hsh
              refine ⟨_, lookupFid_insertFid_self _ _ _, ?_⟩
              rw [hk]
              simp [storedHistory, hlu, defaultNode]

/-- Witness run for C6: two accesses and a threshold crossing with k = 1. -/
def traceW6 : List Op := [.acc 0, .acc 0]

/-- Concrete state reached by `traceW6`. -/
def stateW6 : LRUKReplacer :=
  ⟨1, 1, 5, [(0, ⟨0, [1], false, 1⟩)], [], [], [], 0, 2⟩

/-- C6 witness: instantiate the theorem on a concrete remove-free run and
on frame 0 of the reached state. -/
theorem claim_C6_history_bounded_witness :
    NoRemove traceW6 ∧ (⟨0, [1], false, 1⟩ : LRUKNode).history.length ≤ 1 :=
  ⟨by decide,
   (claim_C6_history_bounded 1 1 5 traceW6 stateW6 (by decide) rfl).1 0
     ⟨0, [1], false, 1⟩ rfl⟩

/-- The concrete run refuting C2 as stated: touch frame 0, make it evictable,
remove it, re-access it, make it evictable again.  `Remove` does not delete
the frame's stale entry from the orderings, so the re-tracked frame ends up
with two entries in the fewer-than-K ordering. -/
def trace_C2 : List Op := [.acc 0, .setEv 0 true, .rem 0, .acc 0, .setEv 0 true]

/-- C2 counterexample: after `trace_C2` frame 0 is tracked and evictable with
history length 1 < K = 2, yet it occurs twice in the fewer-than-K ordering —
the claimed membership invariant fails once `remove` is involved. -/
theorem claim_C2_counterexample :
    run trace_C2 (mkReplacer 1 2 5) =
      .ok ⟨1, 2, 5, [(0, ⟨0, [3], true, 2⟩)],
        [⟨0, [0], true, 2⟩, ⟨0, [3], true, 2⟩], [], [], 1, 5⟩ ∧
    (⟨0, [3], true, 2⟩ : LRUKNode).is_evictable = true ∧
    (⟨0, [3], true, 2⟩ : LRUKNode).history.length < 2 ∧
    countFid 0 [⟨0, [0], true, 2⟩, ⟨0, [3], true, 2⟩] = 2 :=
  ⟨rfl, rfl, by decide, by decide⟩

/-- C2 amended: on every remove-free sequence of `record_access`,
`set_evictable` and `evict` calls, each evictable tracked node sits in
exactly one priority ordering — the fewer-than-K ordering exactly when its
history is shorter than K, the K-or-more ordering exactly when it has
reached K. -/
theorem claim_C2_membership (n k cap : Nat) (ops : List Op) (s : LRUKReplacer)
    (hnr : NoRemove ops) (hok : run ops (mkReplacer n k cap) = .ok s) :
    ∀ f node, lookupFid s.node_store f = some node → node.is_evictable = true →
      (node.history.length < k →
        countFid f s.less_k_history = 1 ∧ countFid f s.k_history = 0) ∧
      (k ≤ node.history.length →
        countFid f s.less_k_history = 0 ∧ countFid f s.k_history = 1) := by
  have hk : s.k = k := (run_params hok).1
  obtain ⟨hheap, hsize, hhist, hfidinv⟩ := reach_inv hnr hok
  intro f node hlu hev
  have h1 := (hheap f).1
  have h2 := (hheap f).2
  simp only [expLessS, expKS, hlu] at h1 h2
  rw [hk] at h1 h2
  constructor
  · intro hlt
    constructor
    · rw [h1, if_pos ⟨hev, hlt⟩]
    · rw [h2, if_neg (fun hh => absurd hh.2 (by omega))]
  · intro hge
    constructor
    · rw [h1, if_neg (fun hh => absurd hh.2 (by omega))]
    · rw [h2, if_pos ⟨hev, hge⟩]

/-- Witness run for the amended C2. -/
def traceW2 : List Op := [.acc 0, .setEv 0 true]

/-- Concrete state reached by `traceW2`. -/
def stateW2 : LRUKReplacer :=
  ⟨1, 2, 5, [(0, ⟨0, [0], true, 2⟩)], [⟨0, [0], true, 2⟩], [], [], 1, 2⟩

/-- C2 amended witness: the evictable frame of a concrete run sits exactly
once in the fewer-than-K ordering and not at all in the K ordering. -/
theorem claim_C2_membership_witness :
    countFid 0 stateW2.less_k_history = 1 ∧ countFid 0 stateW2.k_history = 0 :=
  (claim_C2_membership 1 2 5 traceW2 stateW2 (by decide) rfl
    0 ⟨0, [0], true, 2⟩ rfl rfl).1 (by decide)


/-- C3: after any sequence of `record_access` and `set_evictable` calls,
`Evict` succeeds, never returns a frame whose evictable flag is false, and
returns none exactly when no tracked frame is evictable. -/
theorem claim_C3_evict_safe (n k cap : Nat) (ops : List Op) (s : LRUKReplacer)
    (hops : OnlyAccessSet ops) (hok : run ops (mkReplacer n k cap) = .ok s) :
    ∃ r s2, s.Evict = .ok (r, s2) ∧
      (∀ f, r = some f → ∃ node, lookupFid s.node_store f = some node ∧
        node.is_evictable = true) ∧
      (r = none ↔ ∀ f node, lookupFid s.node_store f = some node →
        node.is_evictable = false) := by
  obtain ⟨hheap, hsize, hhist, hfidinv⟩ := reach_inv (onlyAccessSet_noRemove hops) hok
  have hs : s.curr_size = s.less_k_history.length + s.k_history.length := hsize
  by_cases hz : s.curr_size = 0
  · refine ⟨none, s, ?_, ?_, ?_⟩
    · unfold LRUKReplacer.Evict
      rw [if_pos hz]
    · intro f hf
      cases hf
    · refine iff_of_true rfl ?_
      intro f node hlu
      cases hb : node.is_evictable with
      | false => rfl
      | true =>
          exfalso
          have h1 := (hheap f).1
          have h2 := (hheap f).2
          simp only [expLessS, expKS, hlu] at h1 h2
          have hbl := countFid_le_length f s.less_k_history
          have hbk := countFid_le_length f s.k_history
          by_cases hlt : node.history.length < s.k
          · rw [if_pos ⟨hb, hlt⟩] at h1
            omega
          · rw [if_pos ⟨hb, by omega⟩] at h2
            omega
  · cases hle : s.less_k_history with
    | cons e rest =>
        have hce : 1 ≤ countFid e.fid s.less_k_history := by
          rw [hle]
          simp [countFid]
        have hone : expLessS s.k s.node_store e.fid = 1 := by
          have hx := (hheap e.fid).1
          have := expLessS_le_one s.k s.node_store e.fid
          omega
        obtain ⟨m, hm, hmev, hmlt⟩ := expLessS_eq_one hone
        have hevq : s.Evict = .ok (some e.fid,
            LRUKReplacer.Evict.finish e.fid { s with less_k_history := rest }) := by
          unfold LRUKReplacer.Evict
          rw [if_neg hz, hle]
        refine ⟨some e.fid, _, hevq, ?_, ?_⟩
        · intro f hf
          cases hf
          exact ⟨m, hm, hmev⟩
        · refine iff_of_false (by simp) ?_
          intro hall
          have := hall e.fid m hm
          rw [this] at hmev
          cases hmev
    | nil =>
        cases hke : s.k_history with
        | nil =>
            exfalso
            rw [hle, hke] at hs
            simp at hs
            omega
        | cons e rest =>
            have hce : 1 ≤ countFid e.fid s.k_history := by
              rw [hke]
              simp [countFid]
            have hone : expKS s.k s.node_store e.fid = 1 := by
              have hx := (hheap e.fid).2
              have := expKS_le_one s.k s.node_store e.fid
              omega
            obtain ⟨m, hm, hmev, hmge⟩ := expKS_eq_one hone
            have hevq : s.Evict = .ok (some e.fid,
                LRUKReplacer.Evict.finish e.fid { s with k_history := rest }) := by
              unfold LRUKReplacer.Evict
              rw [if_neg hz, hle, hke]
            refine ⟨some e.fid, _, hevq, ?_, ?_⟩
            · intro f hf
              cases hf
              exact ⟨m, hm, hmev⟩
            · refine iff_of_false (by simp) ?_
              intro hall
              have := hall e.fid m hm
              rw [this] at hmev
              cases hmev

/-- C3 witness: a concrete access/set-evictable run on which `Evict`
succeeds with the stated guarantees. -/
theorem claim_C3_evict_safe_witness :
    OnlyAccessSet traceW2 ∧
    (∃ r s2, stateW2.Evict = .ok (r, s2) ∧
      (∀ f, r = some f → ∃ node, lookupFid stateW2.node_store f = some node ∧
        node.is_evictable = true) ∧
      (r = none ↔ ∀ f node, lookupFid stateW2.node_store f = some node →
        node.is_evictable = false)) :=
  ⟨by decide, claim_C3_evict_safe 1 2 5 traceW2 stateW2 (by decide) rfl⟩

/-- The concrete run refuting C4 as stated: frame 0 becomes evictable and is
removed, which leaves its stale entry in the fewer-than-K ordering; it is
then re-tracked, acquires a full K-length history and becomes evictable
(entering the K-or-more ordering), and finally cold frame 1 becomes
evictable too. -/
def trace_C4 : List Op :=
  [.acc 0, .setEv 0 true, .rem 0, .acc 0, .acc 0, .setEv 0 true,
   .acc 1, .setEv 1 true]

/-- The state reached by `trace_C4`: both frames are tracked and evictable,
frame 0 with the full history `[3, 4]`, frame 1 with the single access
`[6]`; the fewer-than-K ordering still holds frame 0's stale pre-remove
entry. -/
def stateC4 : LRUKReplacer :=
  ⟨2, 2, 5,
   [(1, ⟨1, [6], true, 2⟩), (0, ⟨0, [3, 4], true, 2⟩)],
   [⟨0, [0], true, 2⟩, ⟨1, [6], true, 2⟩],
   [⟨0, [3, 4], true, 2⟩], [], 2, 8⟩

/-- C4 counterexample: in `stateC4` the evictable frame 1 has fewer than K
recorded accesses, yet `Evict` returns frame 0, whose history is full —
the stale fewer-than-K entry left behind by `Remove` is popped first, so
the claim as stated (over all call sequences) is false. -/
theorem claim_C4_counterexample :
    run trace_C4 (mkReplacer 2 2 5) = .ok stateC4 ∧
    lookupFid stateC4.node_store 1 = some ⟨1, [6], true, 2⟩ ∧
    (⟨1, [6], true, 2⟩ : LRUKNode).is_evictable = true ∧
    (⟨1, [6], true, 2⟩ : LRUKNode).history.length < stateC4.k ∧
    (stateC4.Evict).map (fun pr => pr.1) = .ok (some 0) ∧
    lookupFid stateC4.node_store 0 = some ⟨0, [3, 4], true, 2⟩ ∧
    ¬ (⟨0, [3, 4], true, 2⟩ : LRUKNode).history.length < stateC4.k :=
  ⟨rfl, rfl, rfl, by decide, rfl, rfl, by decide⟩

/-- C4 amended: on remove-free call sequences, whenever some evictable
frame has fewer than K recorded accesses, `Evict` picks such a frame, never
one with a full history. -/
theorem claim_C4_infinite_first (n k cap : Nat) (ops : List Op) (s : LRUKReplacer)
    (hnr : NoRemove ops) (hok : run ops (mkReplacer n k cap) = .ok s)
    (f0 : Nat) (node0 : LRUKNode)
    (h0 : lookupFid s.node_store f0 = some node0)
    (hev0 : node0.is_evictable = true) (hlt0 : node0.history.length < k) :
    ∃ v s2, s.Evict = .ok (some v, s2) ∧
      ∃ node, lookupFid s.node_store v = some node ∧
        node.is_evictable = true ∧ node.history.length < k := by
  have hk : s.k = k := (run_params hok).1
  obtain ⟨hheap, hsize, hhist, hfidinv⟩ := reach_inv hnr hok
  have hs : s.curr_size = s.less_k_history.length + s.k_history.length := hsize
  have hcnt : countFid f0 s.less_k_history = 1 := by
    rw [(hheap f0).1]
    simp only [expLessS, h0]
    rw [if_pos ⟨hev0, by omega⟩]
  have hlen : 1 ≤ s.less_k_history.length := by
    have := countFid_le_length f0 s.less_k_history
    omega
  cases hle : s.less_k_history with
  | nil =>
      rw [hle] at hlen
      simp at hlen
  | cons e rest =>
      have hz : ¬ s.curr_size = 0 := by
        rw [hle] at hs
        simp only [List.length_cons] at hs
        omega
      have hce : 1 ≤ countFid e.fid s.less_k_history := by
        rw [hle]
        simp [countFid]
      have hone : expLessS s.k s.node_store e.fid = 1 := by
        have hx := (hheap e.fid).1
        have := expLessS_le_one s.k s.node_store e.fid
        omega
      obtain ⟨m, hm, hmev, hmlt⟩ := expLessS_eq_one hone
      have hmk : m.history.length < k := by omega
      have hevq : s.Evict = .ok (some e.fid,
          LRUKReplacer.Evict.finish e.fid { s with less_k_history := rest }) := by
        unfold LRUKReplacer.Evict
        rw [if_neg hz, hle]
      exact ⟨e.fid, _, hevq, m, hm, hmev, hmk⟩

/-- C4 witness: with frame 0 cold (1 access, K = 2) and evictable, eviction
returns a cold frame. -/
theorem claim_C4_infinite_first_witness :
    ∃ v s2, stateW2.Evict = .ok (some v, s2) ∧
      ∃ node, lookupFid stateW2.node_store v = some node ∧
        node.is_evictable = true ∧ node.history.length < 2 :=
  claim_C4_infinite_first 1 2 5 traceW2 stateW2 (by decide) rfl
    0 ⟨0, [0], true, 2⟩ rfl rfl (by decide)

/-- The run exhibiting C5's divergence: frames 0 and 1 each get one access,
both become evictable, then frame 0 is accessed again.  Its entry in the
fewer-than-K ordering still carries the stale first-access key. -/
def trace_C5 : List Op := [.acc 0, .acc 1, .setEv 0 true, .setEv 1 true, .acc 0]

/-- The state reached by `trace_C5`. -/
def stateC5 : LRUKReplacer :=
  ⟨2, 3, 5,
   [(0, ⟨0, [0, 4], true, 3⟩), (1, ⟨1, [1], true, 3⟩)],
   [⟨0, [0], true, 3⟩, ⟨1, [1], true, 3⟩], [], [], 2, 5⟩

/-- C5 divergence: in `stateC5` every evictable frame has fewer than K
accesses, frame 1's most recent access (timestamp 1) is older than frame 0's
(timestamp 4), yet `Evict` returns frame 0, because `RecordAccess` never
refreshes a sub-threshold node's queue entry, which still holds the stale
history `[0]`. -/
theorem claim_C5_divergence :
    run trace_C5 (mkReplacer 2 3 5) = .ok stateC5 ∧
    (∀ p ∈ stateC5.node_store, (p.2).is_evictable = true ∧
      (p.2).history.length < stateC5.k) ∧
    (stateC5.Evict).map (fun pr => pr.1) = .ok (some 0) ∧
    storedHistory stateC5 0 = [0, 4] ∧
    storedHistory stateC5 1 = [1] ∧
    ([1] : List Nat).getLast?.getD 0 < ([0, 4] : List Nat).getLast?.getD 0 :=
  ⟨rfl, by decide, rfl, rfl, rfl, by decide⟩

/-- The run exhibiting C1's divergence: fill frame 0's history, evict it
(its node, history `[0, 1]`, is retained in the evicted-page cache), then
re-access it. -/
def trace_C1 : List Op := [.acc 0, .acc 0, .setEv 0 true, .evict]

/-- The state reached by `trace_C1`: frame 0 is untracked and its
pre-eviction node, history `[0, 1]`, sits in the evicted-page cache. -/
def stateC1 : LRUKReplacer :=
  ⟨1, 2, 5, [], [], [], [(3, ⟨0, [0, 1], true, 2⟩)], 0, 4⟩

/-- C1 divergence: re-accessing the evicted frame finds its node in the
evicted-page cache but clears the restored history (line 50 of
lru_k_replacer.cpp), so the frame restarts with history `[4]` instead of
resuming with `[0, 1] ++ [4]` as the spec describes. -/
theorem claim_C1_divergence :
    run trace_C1 (mkReplacer 1 2 5) = .ok stateC1 ∧
    stateC1.cache_deleted_pages = [(3, ⟨0, [0, 1], true, 2⟩)] ∧
    lookupFid stateC1.node_store 0 = none ∧
    stateC1.RecordAccess 0 =
      .ok ⟨1, 2, 5, [(0, ⟨0, [4], false, 2⟩)], [], [], [], 0, 5⟩ ∧
    lookupFid [(0, (⟨0, [4], false, 2⟩ : LRUKNode))] 0 = some ⟨0, [4], false, 2⟩ ∧
    ([4] : List Nat) ≠ [0, 1] ++ [4] :=
  ⟨rfl, rfl, rfl, rfl, rfl, by decide⟩


/-- C7: `Remove` on a tracked non-evictable frame trips the
`BUSTUB_ASSERT` (fatal in an assertion-checked build); on a tracked
evictable frame it forgets the node. -/
theorem claim_C7_remove (s : LRUKReplacer) (fid : Nat) (node : LRUKNode)
    (hrange : fid < s.replacer_size)
    (hlu : lookupFid s.node_store fid = some node) :
    (node.is_evictable = false → s.Remove fid = .error .assertFail) ∧
    (node.is_evictable = true → ∃ s2, s.Remove fid = .ok s2 ∧
      lookupFid s2.node_store fid = none) := by
  constructor
  · intro hev
    unfold LRUKReplacer.Remove
    rw [if_neg (fun hh => hh hrange), hlu]
    dsimp only
    rw [if_pos hev]
  · intro hev
    unfold LRUKReplacer.Remove
    rw [if_neg (fun hh => hh hrange), hlu]
    dsimp only
    rw [if_neg (by rw [hev]; simp)]
    refine ⟨_, rfl, ?_⟩
    show lookupFid (eraseFid s.node_store fid) fid = none
    rw [lookupFid_eraseFid, if_pos rfl]

/-- A state tracking frame 0 as non-evictable. -/
def stateC7a : LRUKReplacer :=
  ⟨1, 2, 5, [(0, ⟨0, [0], false, 2⟩)], [], [], [], 0, 1⟩

/-- A state tracking frame 0 as evictable. -/
def stateC7b : LRUKReplacer :=
  ⟨1, 2, 5, [(0, ⟨0, [0], true, 2⟩)], [⟨0, [0], true, 2⟩], [], [], 1, 2⟩

/-- C7 witness: removing the pinned frame faults, removing the evictable
frame forgets its node. -/
theorem claim_C7_remove_witness :
    LRUKReplacer.Remove stateC7a 0 = .error .assertFail ∧
    (∃ s2, LRUKReplacer.Remove stateC7b 0 = .ok s2 ∧
      lookupFid s2.node_store 0 = none) :=
  ⟨(claim_C7_remove stateC7a 0 ⟨0, [0], false, 2⟩ (by decide) rfl).1 rfl,
   (claim_C7_remove stateC7b 0 ⟨0, [0], true, 2⟩ (by decide) rfl).2 rfl⟩

/-- C9: ids at or above the configured pool size make `RecordAccess` and
`SetEvictable` fail the range assertion; an in-range untracked id makes
`SetEvictable` return the state unchanged — in particular all replacer
state apart from the clock (and indeed the clock too) is untouched. -/
theorem claim_C9_range_and_noop (s : LRUKReplacer) (fid : Nat) (b : Bool) :
    (s.replacer_size ≤ fid →
      s.RecordAccess fid = .error .assertFail ∧
      s.SetEvictable fid b = .error .assertFail) ∧
    (fid < s.replacer_size → lookupFid s.node_store fid = none →
      s.SetEvictable fid b = .ok s) := by
  constructor
  · intro hge
    constructor
    · unfold LRUKReplacer.RecordAccess
      rw [if_pos (by omega)]
    · unfold LRUKReplacer.SetEvictable
      rw [if_pos (by omega)]
  · intro hlt hlu
    unfold LRUKReplacer.SetEvictable
    rw [if_neg (fun hh => hh hlt), hlu]

/-- C9 witness: id 5 is rejected on a one-frame replacer; an untracked
in-range id leaves the state untouched. -/
theorem claim_C9_range_and_noop_witness :
    (LRUKReplacer.RecordAccess stateC7a 5 = .error .assertFail ∧
     LRUKReplacer.SetEvictable stateC7a 5 true = .error .assertFail) ∧
    LRUKReplacer.SetEvictable stateC1 0 true = .ok stateC1 :=
  ⟨(claim_C9_range_and_noop stateC7a 5 true).1 (by decide),
   (claim_C9_range_and_noop stateC1 0 true).2 (by decide) rfl⟩

/-- State reached by accessing frame 0 once on a two-frame replacer. -/
def stateC10 : LRUKReplacer :=
  ⟨2, 1, 5, [(0, ⟨0, [0], false, 1⟩)], [], [], [], 0, 1⟩

/-- C10 counterexample: frame 1 is in range (1 < 2) but untracked, and the
`SetEvictable` call returns with the logical timestamp still at 1 — the
claimed unconditional increment does not happen. -/
theorem claim_C10_counterexample :
    run [Op.acc 0] (mkReplacer 2 1 5) = .ok stateC10 ∧
    (1 : Nat) < stateC10.replacer_size ∧
    LRUKReplacer.SetEvictable stateC10 1 true = .ok stateC10 ∧
    stateC10.current_timestamp = 1 ∧
    stateC10.current_timestamp ≠ stateC10.current_timestamp + 1 :=
  ⟨rfl, by decide, rfl, rfl, by decide⟩

/-- C10 amended: `SetEvictable` on an in-range tracked frame increments the
logical timestamp by exactly one even if the evictable flag does not change,
while on an in-range untracked frame it returns the state, clock included,
unchanged. -/
theorem claim_C10_clock (s : LRUKReplacer) (fid : Nat) (b : Bool) :
    (∀ node s2, fid < s.replacer_size →
      lookupFid s.node_store fid = some node →
      s.SetEvictable fid b = .ok s2 →
      s2.current_timestamp = s.current_timestamp + 1) ∧
    (fid < s.replacer_size → lookupFid s.node_store fid = none →
      s.SetEvictable fid b = .ok s) := by
  constructor
  · intro node s2 hlt hlu hok
    unfold LRUKReplacer.SetEvictable at hok
    rw [if_neg (fun hh => hh hlt), hlu] at hok
    dsimp only at hok
    split at hok
    · cases hok
      rfl
    · split at hok
      · split at hok
        · cases hok
          rfl
        · cases hre : pqRemoveFidE fid s.less_k_history with
          | error e => rw [hre] at hok; cases hok
          | ok lq2 =>
              rw [hre] at hok
              simp only [Except.map, Except.ok.injEq] at hok
              subst hok
              rfl
      · cases hok
        rfl
  · intro hlt hlu
    unfold LRUKReplacer.SetEvictable
    rw [if_neg (fun hh => hh hlt), hlu]

/-- C10 amended witness: a flag-turning call on a tracked frame advances the
clock from 1 to 2. -/
theorem claim_C10_clock_witness :
    stateC7b.current_timestamp = stateC7a.current_timestamp + 1 :=
  (claim_C10_clock stateC7a 0 true).1 ⟨0, [0], false, 2⟩ stateC7b
    (by decide) rfl rfl

/-- The freshly inserted entry survives the trim whenever the cache
capacity is at least one. -/
theorem mem_cacheTrim_insert {cap ts : Nat} {c : List (Nat × LRUKNode)}
    (v : LRUKNode) (hlen : c.length ≤ cap) (hfresh : ∀ p ∈ c, p.1 < ts)
    (hcap : 1 ≤ cap) : (ts, v) ∈ cacheTrim cap (cacheInsert ts v c) := by
  rw [cacheInsert_fresh v hfresh]
  unfold cacheTrim
  split
  · rename_i h
    cases c with
    | nil => simp at h; omega
    | cons a restc => simp
  · simp

/-- C8: in every reachable state the evicted-page cache respects its
capacity; a successful eviction or removal of a tracked node inserts that
node under the current timestamp and trims, the inserted entry surviving
whenever the capacity is at least one; and when an insertion overflows the
capacity the dropped entry is the head, which carries the oldest eviction
timestamp. -/
theorem claim_C8_cache (n k cap : Nat) (ops : List Op) (s : LRUKReplacer)
    (hok : run ops (mkReplacer n k cap) = .ok s) :
    s.cache_deleted_pages.length ≤ cap ∧
    (∀ r s2 f node, s.Evict = .ok (r, s2) → r = some f →
      lookupFid s.node_store f = some node →
        s2.cache_deleted_pages =
          cacheTrim cap
            (cacheInsert s.current_timestamp node s.cache_deleted_pages) ∧
        (1 ≤ cap →
          (s.current_timestamp, node) ∈ s2.cache_deleted_pages)) ∧
    (∀ s2 fid node, s.Remove fid = .ok s2 →
      lookupFid s.node_store fid = some node → node.is_evictable = true →
        s2.cache_deleted_pages =
          cacheTrim cap
            (cacheInsert s.current_timestamp node s.cache_deleted_pages) ∧
        (1 ≤ cap →
          (s.current_timestamp, node) ∈ s2.cache_deleted_pages)) ∧
    (∀ (v : LRUKNode) (d : Nat × LRUKNode),
      cap < (cacheInsert s.current_timestamp v s.cache_deleted_pages).length →
      s.cache_deleted_pages.head? = some d →
        (∀ p ∈ cacheInsert s.current_timestamp v s.cache_deleted_pages,
          d.1 ≤ p.1) ∧
        cacheTrim cap (cacheInsert s.current_timestamp v s.cache_deleted_pages) =
          (cacheInsert s.current_timestamp v s.cache_deleted_pages).tail) := by
  have hcap : s.cache_cap = cap := (run_params hok).2.2
  obtain ⟨hb, hpw, hfresh⟩ := reach_cacheInv hok
  refine ⟨by omega, ?_, ?_, ?_⟩
  · intro r s2 f node hev hr hlu
    subst hr
    rcases evict_shape hev with ⟨hrr, _, _⟩ | ⟨f2, lq, kq, hrr, hse⟩
    · cases hrr
    · injection hrr with hff
      subst hff
      subst hse
      rw [hcap] at hb
      constructor
      · show cacheTrim s.cache_cap (cacheInsert s.current_timestamp
            ((lookupFid s.node_store f).getD defaultNode) s.cache_deleted_pages) = _
        rw [hlu, hcap]
        rfl
      · intro h1
        show (s.current_timestamp, node) ∈ cacheTrim s.cache_cap
          (cacheInsert s.current_timestamp
            ((lookupFid s.node_store f).getD defaultNode) s.cache_deleted_pages)
        rw [hlu, hcap]
        exact mem_cacheTrim_insert node hb hfresh h1
  · intro s2 fid node hrm hlu hevn
    rcases remove_shape hrm with ⟨hlu2, _⟩ | ⟨node2, hlu2, hev2, hse⟩
    · rw [hlu] at hlu2
      cases hlu2
    · rw [hlu] at hlu2
      injection hlu2 with hnn
      subst hnn
      subst hse
      rw [hcap] at hb
      constructor
      · show cacheTrim s.cache_cap (cacheInsert s.current_timestamp node
            s.cache_deleted_pages) = _
        rw [hcap]
      · intro h1
        show (s.current_timestamp, node) ∈ cacheTrim s.cache_cap
          (cacheInsert s.current_timestamp node s.cache_deleted_pages)
        rw [hcap]
        exact mem_cacheTrim_insert node hb hfresh h1
  · intro v d hover hhead
    constructor
    · intro p hp
      rw [cacheInsert_fresh v hfresh] at hp
      simp only [List.mem_append, List.mem_singleton] at hp
      cases hle2 : s.cache_deleted_pages with
      | nil => rw [hle2] at hhead; cases hhead
      | cons a restc =>
          rw [hle2] at hhead
          simp only [List.head?] at hhead
          have hda : a = d := by injection hhead
          subst hda
          rcases hp with hp | hp
          · rw [hle2] at hp
            rcases List.mem_cons.mp hp with hp | hp
            · rw [hp]
            · rw [hle2] at hpw
              have := (List.pairwise_cons.mp hpw).1 p hp
              omega
          · rw [hp]
            have := hfresh a (by rw [hle2]; simp)
            simp only
            omega
    · unfold cacheTrim
      rw [if_pos hover]

/-- C8 witness: a fresh one-op run satisfies the cache facts; the bound is
instantiated on the state with one cached entry. -/
theorem claim_C8_cache_witness :
    stateC1.cache_deleted_pages.length ≤ 5 :=
  (claim_C8_cache 1 2 5 trace_C1 stateC1 rfl).1

end LRUK
